import Mathlib

/-!
# dom-timeline-core: the mutation history engine

A shallow embedding of `src/dom-timeline-core.js` (the first `void function() { ... }()`
block: `domHistory.undo`, `domHistory.redo`, `getAttribute`, `postProcessRecords`,
`logUnclaimedMutations`, `logClaimedMutations`, the patched function wrapper of
`enableCallstackTracking`, `undoMutationRecord`, `redoMutationRecord`).

The script runs against two host facilities that are not part of the repository:
the DOM tree and a `MutationObserver`.  Both are modelled here after the DOM Standard,
as far as the script uses them:

* a node is a natural number; the tree stores, per node, its attributes, its `nodeValue`,
  its parent and its ordered child list;
* every tree write appends the mutation record the observer would queue (every node is
  taken to be observed); `takeRecords()` returns and empties that queue;
* arguments of DOM methods go through the WebIDL `DOMString` conversion, so that
  `setAttribute(name, null)` stores the string `"null"`;
* `insertBefore` runs the pre-insertion validity checks that depend on the tree shape
  (`HierarchyRequestError`, `NotFoundError`); the checks on node types are not modelled,
  and neither are attribute namespaces;
* an attribute name is the name as the element stores it and as a record reports it:
  the lowercasing that `setAttribute` and `getAttribute` apply to their argument on an
  HTML element is not modelled.

JavaScript exceptions are modelled by returning the state reached together with an
optional exception: a `finally` block is the code that runs in both outcomes.
-/

namespace DomTimeline

/-! ## JavaScript values -/

/-- A node reference (object identity of a DOM node). -/
abbrev Node := Nat

/-- The JavaScript values that can end up in the `newValue` and `stack` properties of a
record: `undefined`, `null`, a string, or a member of `Object.prototype` obtained by an
inherited property lookup on the plain object `{}` (such as `({})["constructor"]`). -/
inductive JSVal where
  | undefined
  | null
  | str (s : String)
  | protoProp (name : String)
deriving DecidableEq, Repr

namespace JSVal

/-- A DOM read that yields `null` or a string. -/
def ofOption : Option String → JSVal
  | none => null
  | some s => str s

/-- JavaScript truthiness (`ToBoolean`): `undefined`, `null` and `""` are falsy, every
object is truthy. -/
def truthy : JSVal → Bool
  | undefined => false
  | null => false
  | str s => decide (s ≠ "")
  | protoProp _ => true

/-- The loose comparison `v != undefined`: false exactly for `undefined` and `null`. -/
def looseNeUndefined : JSVal → Bool
  | undefined => false
  | null => false
  | _ => true

/-- WebIDL conversion to `DOMString` (JavaScript `ToString`).  For a member of
`Object.prototype` the text is the one V8 prints. -/
def toDOMString : JSVal → String
  | undefined => "undefined"
  | null => "null"
  | str s => s
  | protoProp name =>
    if name = "__proto__" then "[object Object]"
    else if name = "constructor" then "function Object() \x7b [native code] \x7d"
    else "function " ++ name ++ "() \x7b [native code] \x7d"

/-- WebIDL conversion to a nullable `DOMString?` followed by the rule of the `nodeValue`
setter that treats `null` as the empty string. -/
def toNodeValueString : JSVal → String
  | undefined => ""
  | null => ""
  | v => v.toDOMString

end JSVal

/-- WebIDL `DOMString` conversion of a property that is a string or `null`
(`record.attributeName` is `null` on records that are not of type `attributes`). -/
def attrKey : Option String → String
  | none => "null"
  | some s => s

/-! ## Plain objects used as dictionaries (`attrValues = {}`) -/

/-- The property names every object created by `{}` inherits from `Object.prototype`. -/
def objectPrototypeProps : List String :=
  ["constructor", "__defineGetter__", "__defineSetter__", "hasOwnProperty",
   "__lookupGetter__", "__lookupSetter__", "isPrototypeOf", "propertyIsEnumerable",
   "toString", "valueOf", "__proto__", "toLocaleString"]

/-- An object created by the literal `{}` and only ever written through `obj[key] = v`
with `v` a string or `null`: its own properties, and whether its prototype has been set
to `null` (which the assignment `obj["__proto__"] = null` does). -/
structure PlainObject where
  own : String → Option (Option String)
  nullProto : Bool

namespace PlainObject

/-- The literal `{}`. -/
def empty : PlainObject := { own := fun _ => none, nullProto := false }

/-- The lookup `obj[key]`: an own property, else a property inherited from
`Object.prototype`, else `undefined`. -/
def get (o : PlainObject) (key : String) : JSVal :=
  match o.own key with
  | some v => JSVal.ofOption v
  | none =>
    if o.nullProto then JSVal.undefined
    else if key ∈ objectPrototypeProps then JSVal.protoProp key
    else JSVal.undefined

/-- The assignment `obj[key] = v`.  While the prototype is `Object.prototype`, the key
`__proto__` reaches the inherited setter, which changes the prototype when `v` is `null`
and ignores a string. -/
def set (o : PlainObject) (key : String) (v : Option String) : PlainObject :=
  if key = "__proto__" ∧ o.nullProto = false then
    match v with
    | none => { o with nullProto := true }
    | some _ => o
  else
    { o with own := fun k => if k = key then some v else o.own k }

end PlainObject

/-! ## Mutation records -/

/-- The `type` of a `MutationRecord`. -/
inductive RecordType where
  | attributes
  | characterData
  | childList
deriving DecidableEq, Repr

/-- A `MutationRecord` as delivered by the observer (`previousSibling` and
`attributeNamespace`, which the script never reads, are left out), together with the two
properties the script adds to it: `newValue` and `stack`, both `undefined` until set. -/
structure MutationRecord where
  type : RecordType
  target : Node
  attributeName : Option String
  oldValue : Option String
  addedNodes : List Node
  removedNodes : List Node
  nextSibling : Option Node
  newValue : JSVal
  stack : JSVal
deriving DecidableEq, Repr

namespace MutationRecord

/-- The record of an attribute change, as queued by the observer. -/
def attr (target : Node) (name : String) (oldValue : Option String) : MutationRecord :=
  { type := .attributes, target := target, attributeName := some name, oldValue := oldValue,
    addedNodes := [], removedNodes := [], nextSibling := none,
    newValue := .undefined, stack := .undefined }

/-- The record of a text change, as queued by the observer. -/
def text (target : Node) (oldValue : Option String) : MutationRecord :=
  { type := .characterData, target := target, attributeName := none, oldValue := oldValue,
    addedNodes := [], removedNodes := [], nextSibling := none,
    newValue := .undefined, stack := .undefined }

/-- The record of a child list change, as queued by the observer. -/
def children (target : Node) (added removed : List Node) (next : Option Node) :
    MutationRecord :=
  { type := .childList, target := target, attributeName := none, oldValue := none,
    addedNodes := added, removedNodes := removed, nextSibling := next,
    newValue := .undefined, stack := .undefined }

/-- The event a record stands for: the record without the two properties added by
the script. -/
def event (r : MutationRecord) : MutationRecord :=
  { r with newValue := .undefined, stack := .undefined }

end MutationRecord

/-! ## The DOM tree and the observer queue -/

/-- Exceptions thrown by `insertBefore`. -/
inductive DOMException where
  | HierarchyRequestError
  | NotFoundError
deriving DecidableEq, Repr

/-- The tree: per node its attributes (`none`: attribute absent), its `nodeValue`
(`none`, that is `null`, on a node that is not character data), its parent and its
ordered child list.  `size` bounds the depth of the tree (the number of node objects). -/
structure Dom where
  attributes : Node → String → Option String
  nodeValue : Node → Option String
  parentNode : Node → Option Node
  childNodes : Node → List Node
  size : Nat

namespace Dom

/-- The node itself followed by its ancestors, nearest first, read off the parent
pointers (at most `fuel` steps up). -/
def inclusiveAncestors (d : Dom) : Nat → Node → List Node
  | 0, n => [n]
  | fuel + 1, n =>
    match d.parentNode n with
    | none => [n]
    | some p => n :: inclusiveAncestors d fuel p

/-- The check of `insertBefore` on its reference child: it fails when the child is not
`null` and its parent is not `target`. -/
def notChildOf (d : Dom) (target : Node) : Option Node → Bool
  | none => false
  | some c => decide (d.parentNode c ≠ some target)

end Dom

/-- The sibling that follows `n` in a child list. -/
def nextSiblingIn (n : Node) : List Node → Option Node
  | [] => none
  | x :: xs => if x = n then xs.head? else nextSiblingIn n xs

/-- Insert `n` into a child list immediately before `ref`, or at the end when `ref` is
`null`. -/
def insertInto (n : Node) (ref : Option Node) : List Node → List Node
  | [] => [n]
  | x :: xs => if ref = some x then n :: x :: xs else x :: insertInto n ref xs

/-- The page as the script sees it: the tree and the record queue of the observer `o`. -/
structure Page where
  dom : Dom
  queue : List MutationRecord

namespace Page

/-- The native `element.getAttribute(name)`. -/
def getAttribute (p : Page) (target : Node) (name : String) : JSVal :=
  JSVal.ofOption (p.dom.attributes target name)

/-- The native getter of `node.nodeValue`. -/
def getNodeValue (p : Page) (target : Node) : JSVal :=
  JSVal.ofOption (p.dom.nodeValue target)

/-- The native `element.setAttribute(name, value)`: the value is converted to a string,
and an `attributes` record with the previous value is queued. -/
def setAttribute (target : Node) (name : String) (value : JSVal) (p : Page) : Page :=
  { dom := { p.dom with
      attributes := fun n a =>
        if n = target ∧ a = name then some value.toDOMString else p.dom.attributes n a },
    queue := p.queue ++ [MutationRecord.attr target name (p.dom.attributes target name)] }

/-- The native `element.removeAttribute(name)` (used by page scripts only). -/
def removeAttribute (target : Node) (name : String) (p : Page) : Page :=
  match p.dom.attributes target name with
  | none => p
  | some old =>
    { dom := { p.dom with
        attributes := fun n a => if n = target ∧ a = name then none else p.dom.attributes n a },
      queue := p.queue ++ [MutationRecord.attr target name (some old)] }

/-- The native setter of `node.nodeValue`: replaces the data of a character data node and
queues a `characterData` record; does nothing on any other node. -/
def setNodeValue (target : Node) (value : JSVal) (p : Page) : Page :=
  match p.dom.nodeValue target with
  | none => p
  | some old =>
    { dom := { p.dom with
        nodeValue := fun n => if n = target then some value.toNodeValueString
                              else p.dom.nodeValue n },
      queue := p.queue ++ [MutationRecord.text target (some old)] }

/-- The native `node.remove()`: detaches the node from its parent, if it has one, and
queues a `childList` record on the parent. -/
def remove (n : Node) (p : Page) : Page :=
  match p.dom.parentNode n with
  | none => p
  | some par =>
    { dom := { p.dom with
        parentNode := fun m => if m = n then none else p.dom.parentNode m,
        childNodes := fun m => if m = par then (p.dom.childNodes par).erase n
                               else p.dom.childNodes m },
      queue := p.queue ++
        [MutationRecord.children par [] [n] (nextSiblingIn n (p.dom.childNodes par))] }

/-- The insertion step of `insertBefore`, for a node that has no parent any more: `node`
becomes the child of `target` immediately before `ref` (last when `ref` is `null`), and a
`childList` record is queued on `target`. -/
def attach (target node : Node) (ref : Option Node) (p : Page) : Page :=
  { dom := { p.dom with
      parentNode := fun m => if m = node then some target else p.dom.parentNode m,
      childNodes := fun m => if m = target then insertInto node ref (p.dom.childNodes target)
                             else p.dom.childNodes m },
    queue := p.queue ++ [MutationRecord.children target [node] [] ref] }

/-- The native `target.insertBefore(node, child)`: checks that `node` is not an inclusive
ancestor of `target` and that `child`, when not `null`, is a child of `target`; then moves
`node` (detaching it from its former parent) immediately before `child`. -/
def insertBefore (target node : Node) (child : Option Node) (p : Page) :
    Page × Option DOMException :=
  if node ∈ p.dom.inclusiveAncestors p.dom.size target then
    (p, some .HierarchyRequestError)
  else if p.dom.notChildOf target child then
    (p, some .NotFoundError)
  else
    let ref := if child = some node then nextSiblingIn node (p.dom.childNodes target)
               else child
    (attach target node ref (p.remove node), none)

end Page

/-! ## The appliers: `undoMutationRecord` and `redoMutationRecord` -/

/-- The loop `for(var i = nodes.length; i--;) nodes[i].remove()`, given the nodes in the
order the loop visits them. -/
def removeEach : List Node → Page → Page
  | [], p => p
  | n :: ns, p => removeEach ns (p.remove n)

/-- The loop `for(var i = nodes.length; i--;) { target.insertBefore(nodes[i], lastNode);
lastNode = nodes[i]; }`, given the nodes in the order the loop visits them.  An exception
leaves the loop. -/
def insertEachBefore (target : Node) : List Node → Option Node → Page →
    Page × Option DOMException
  | [], _, p => (p, none)
  | n :: ns, lastNode, p =>
    match p.insertBefore target n lastNode with
    | (p1, some e) => (p1, some e)
    | (p1, none) => insertEachBefore target ns (some n) p1

/-- The function `undoMutationRecord(change)`: execute the action which cancels a mutation
record.  `addedNodes` and `removedNodes` are node lists, hence always truthy. -/
def undoMutationRecord (change : MutationRecord) (p : Page) : Page × Option DOMException :=
  match change.type with
  | .attributes =>
    (p.setAttribute change.target (attrKey change.attributeName)
      (JSVal.ofOption change.oldValue), none)
  | .characterData =>
    (p.setNodeValue change.target (JSVal.ofOption change.oldValue), none)
  | .childList =>
    insertEachBefore change.target change.removedNodes.reverse change.nextSibling
      (removeEach change.addedNodes.reverse p)

/-- The function `redoMutationRecord(change)`: execute the action which replicates a
mutation record. -/
def redoMutationRecord (change : MutationRecord) (p : Page) : Page × Option DOMException :=
  match change.type with
  | .attributes =>
    (p.setAttribute change.target (attrKey change.attributeName) change.newValue, none)
  | .characterData =>
    (p.setNodeValue change.target change.newValue, none)
  | .childList =>
    match insertEachBefore change.target change.addedNodes.reverse change.nextSibling p with
    | (p1, some e) => (p1, some e)
    | (p1, none) => (removeEach change.removedNodes.reverse p1, none)

/-! ## The engine state -/

/-- One call of `domTimelineOptions.considerLoggingRecords(claim, records, stack)`. -/
structure LogEntry where
  claim : String
  records : List MutationRecord
  stack : JSVal
deriving DecidableEq, Repr

/-- The state of the script: the three arrays of `domHistory`, the counter
`isDoingOffRecordsMutations`, the page, and the calls made so far to the two hooks of
`domTimelineOptions`. -/
structure State where
  past : List MutationRecord
  future : List MutationRecord
  lostFuture : List MutationRecord
  isDoingOffRecordsMutations : Nat
  page : Page
  loggedRecords : List LogEntry
  breakpointCalls : List MutationRecord

/-- The call `o.takeRecords()`: returns the queued records and empties the queue. -/
def takeRecords (s : State) : List MutationRecord × State :=
  (s.page.queue, { s with page := { s.page with queue := [] } })

/-- The function `getAttribute(target, attributeName)`: a read of the attribute with the
counter raised around it. -/
def getAttribute (target : Node) (attributeName : String) (s : State) : JSVal × State :=
  let s1 := { s with isDoingOffRecordsMutations := s.isDoingOffRecordsMutations + 1 }
  let result := s1.page.getAttribute target attributeName
  (result, { s1 with isDoingOffRecordsMutations := s1.isDoingOffRecordsMutations - 1 })

/-! ## `postProcessRecords` -/

/-- The two maps of the general branch: `latestAttributeValues` (node to plain object) and
`latestCharacterDataValues` (node to old value). -/
structure Latest where
  latestAttributeValues : Node → Option PlainObject
  latestCharacterDataValues : Node → Option (Option String)

/-- Both maps empty (`new Map()`). -/
def Latest.empty : Latest :=
  { latestAttributeValues := fun _ => none, latestCharacterDataValues := fun _ => none }

/-- The body of the loop of the general branch, for one record. -/
def reconstructRecord (stack : JSVal) (record : MutationRecord) (m : Latest) (s : State) :
    MutationRecord × Latest × State :=
  match record.type with
  | .attributes =>
    let target := record.target
    let attrName := attrKey record.attributeName
    let attrValues := (m.latestAttributeValues target).getD PlainObject.empty
    let read := if (attrValues.get attrName).truthy then (attrValues.get attrName, s)
                else getAttribute target attrName s
    let m1 := { m with latestAttributeValues := fun n =>
                  if n = target then some (attrValues.set attrName record.oldValue)
                  else m.latestAttributeValues n }
    let record1 := { record with newValue := read.1, stack := stack }
    (record1, m1, { read.2 with breakpointCalls := read.2.breakpointCalls ++ [record1] })
  | .characterData =>
    let target := record.target
    let newValue := match m.latestCharacterDataValues target with
                    | none => JSVal.undefined
                    | some v => JSVal.ofOption v
    let m1 := { m with latestCharacterDataValues := fun n =>
                  if n = target then some record.oldValue
                  else m.latestCharacterDataValues n }
    let record1 := { record with
                     newValue := if newValue.looseNeUndefined then newValue
                                 else s.page.getNodeValue target,
                     stack := stack }
    (record1, m1, { s with breakpointCalls := s.breakpointCalls ++ [record1] })
  | .childList =>
    let record1 := { record with stack := stack }
    (record1, m, { s with breakpointCalls := s.breakpointCalls ++ [record1] })

/-- The loop `for(var i = records.length; i--;) { ... }` of the general branch: the
records after the current one are processed first. -/
def reconstructLoop (stack : JSVal) : List MutationRecord → Latest → State →
    List MutationRecord × Latest × State
  | [], m, s => ([], m, s)
  | record :: later, m, s =>
    let done := reconstructLoop stack later m s
    let step := reconstructRecord stack record done.2.1 done.2.2
    (step.1 :: done.1, step.2.1, step.2.2)

/-- The loop `for(var i = records.length; i--;) undoMutationRecord(records[i])`, given the
records in the order the loop visits them.  An exception leaves the loop. -/
def undoEach : List MutationRecord → Page → Page × Option DOMException
  | [], p => (p, none)
  | r :: rs, p =>
    match undoMutationRecord r p with
    | (p1, some e) => (p1, some e)
    | (p1, none) => undoEach rs p1

/-- The single-record branch of `postProcessRecords`. -/
def postProcessSingle (record : MutationRecord) (stack : JSVal) (s : State) :
    List MutationRecord × State × Option DOMException :=
  let read := match record.type with
              | .attributes =>
                let r := getAttribute record.target (attrKey record.attributeName) s
                ({ record with newValue := r.1 }, r.2)
              | .characterData =>
                ({ record with newValue := s.page.getNodeValue record.target }, s)
              | .childList => (record, s)
  let record1 := { read.1 with stack := stack }
  ([record1], { read.2 with past := read.2.past ++ [record1],
                            breakpointCalls := read.2.breakpointCalls ++ [record1] }, none)

/-- The function `postProcessRecords(records, stack)`: save the newValue attribute on
records to enable redo, and add them to history.  Returns the array `records` as the
caller sees it afterwards. -/
def postProcessRecords (records : List MutationRecord) (stack : JSVal) (s : State) :
    List MutationRecord × State × Option DOMException :=
  if s.future.length > 0 then
    let s1 := if s.lostFuture.length = 0
              then { s with lostFuture := s.lostFuture ++ records }
              else { s with lostFuture := s.lostFuture ++ records }
    -- try
    let s2 := { s1 with isDoingOffRecordsMutations := s1.isDoingOffRecordsMutations + 1 }
    let undone := undoEach records.reverse s2.page
    -- finally
    let s3 := { s2 with page := undone.1,
                        isDoingOffRecordsMutations := s2.isDoingOffRecordsMutations - 1 }
    ([], (takeRecords s3).2, undone.2)
  else
    match records with
    | [record] => postProcessSingle record stack s
    | _ =>
      let done := reconstructLoop stack records Latest.empty s
      (done.1, { done.2.2 with past := done.2.2.past ++ done.1 }, none)

/-- The general branch of `postProcessRecords` (the `else` of `records.length == 1`) on its
own, so that it can be run on any batch. -/
def postProcessGeneral (records : List MutationRecord) (stack : JSVal) (s : State) :
    List MutationRecord × State × Option DOMException :=
  let done := reconstructLoop stack records Latest.empty s
  (done.1, { done.2.2 with past := done.2.2.past ++ done.1 }, none)

/-! ## The capture entry points -/

/-- The function `logUnclaimedMutations(inputRecords)`; `none` is a call without
argument. -/
def logUnclaimedMutations (inputRecords : Option (List MutationRecord)) (s : State) :
    State × Option DOMException :=
  let taken := match inputRecords with
               | some records => (records, s)
               | none => takeRecords s
  if taken.1.length ≠ 0 then
    match postProcessRecords taken.1 .undefined taken.2 with
    | (_, s1, some e) => (s1, some e)
    | (records, s1, none) =>
      if records.length ≠ 0 then
        ({ s1 with loggedRecords := s1.loggedRecords ++ [⟨"unclaimed", records, .undefined⟩] },
         none)
      else (s1, none)
  else (taken.2, none)

/-- The function `logClaimedMutations(claim, stack)`. -/
def logClaimedMutations (claim : String) (stack : String) (s : State) :
    State × Option DOMException :=
  let taken := takeRecords s
  if taken.1.length ≠ 0 then
    match postProcessRecords taken.1 (.str stack) taken.2 with
    | (_, s1, some e) => (s1, some e)
    | (records, s1, none) =>
      if records.length ≠ 0 then
        ({ s1 with loggedRecords := s1.loggedRecords ++ [⟨claim, records, .str stack⟩] }, none)
      else (s1, none)
  else (taken.2, none)

/-- The wrapper installed by `enableCallstackTracking` over a native function or setter
`propName`: flush before, run the native operation, flush after under the claim
`"set " + propName`; both flushes are skipped while the counter is non-zero. -/
def patched (propName : String) (stack : String) (native : Page → Page × Option DOMException)
    (s : State) : State × Option DOMException :=
  let before := if s.isDoingOffRecordsMutations ≠ 0 then (s, none)
                else logUnclaimedMutations none s
  match before with
  | (s1, some e) => (s1, some e)
  | (s1, none) =>
    match native s1.page with
    | (p, some e) => ({ s1 with page := p }, some e)
    | (p, none) =>
      let s2 := { s1 with page := p }
      if s2.isDoingOffRecordsMutations ≠ 0 then (s2, none)
      else logClaimedMutations ("set " ++ propName) stack s2

/-! ## `domHistory.undo` and `domHistory.redo` -/

/-- The method `domHistory.undo()`. -/
def undo (s : State) : State × Option DOMException :=
  -- clean records
  match logUnclaimedMutations (some (takeRecords s).1) (takeRecords s).2 with
  | (s1, some e) => (s1, some e)
  | (s1, none) =>
    -- get mutation to undo
    match s1.past.getLast? with
    | none => (s1, none)
    | some mutation =>
      let s2 := { s1 with past := s1.past.dropLast }
      -- try
      let s3 := { s2 with isDoingOffRecordsMutations := s2.isDoingOffRecordsMutations + 1 }
      let s4 := { s3 with future := s3.future ++ [mutation] }
      let applied := undoMutationRecord mutation s4.page
      -- finally
      let s5 := { s4 with page := applied.1,
                          isDoingOffRecordsMutations := s4.isDoingOffRecordsMutations - 1 }
      ((takeRecords s5).2, applied.2)

/-- The method `domHistory.redo()`. -/
def redo (s : State) : State × Option DOMException :=
  -- clean records
  match logUnclaimedMutations (some (takeRecords s).1) (takeRecords s).2 with
  | (s1, some e) => (s1, some e)
  | (s1, none) =>
    -- get mutation to redo
    match s1.future.getLast? with
    | none => (s1, none)
    | some mutation =>
      let s2 := { s1 with future := s1.future.dropLast }
      -- try
      let s3 := { s2 with isDoingOffRecordsMutations := s2.isDoingOffRecordsMutations + 1 }
      let s4 := { s3 with past := s3.past ++ [mutation] }
      let applied := redoMutationRecord mutation s4.page
      -- finally
      let s5 := { s4 with page := applied.1,
                          isDoingOffRecordsMutations := s4.isDoingOffRecordsMutations - 1 }
      ((takeRecords s5).2, applied.2)

/-! ## Page scripts, flushes and runs

The environment of the engine: writes made by page scripts through the native DOM
operations (which the observer records), and the ways a batch of records reaches
the script. -/

/-- A tree write made by a page script. -/
inductive Write where
  | setAttribute (target : Node) (name : String) (value : String)
  | removeAttribute (target : Node) (name : String)
  | setNodeValue (target : Node) (value : String)
  | remove (node : Node)
  | insertBefore (target node : Node) (child : Option Node)

/-- The effect of a page script write on the page (a failed `insertBefore` changes
nothing). -/
def Write.run : Write → Page → Page
  | .setAttribute target name value, p => p.setAttribute target name (.str value)
  | .removeAttribute target name, p => p.removeAttribute target name
  | .setNodeValue target value, p => p.setNodeValue target (.str value)
  | .remove node, p => p.remove node
  | .insertBefore target node child, p => (p.insertBefore target node child).1

/-- How a batch reaches the script: as the argument of the observer callback
(`logUnclaimedMutations(records)`), by a call `logUnclaimedMutations()` that drains the
queue, or by a call `logClaimedMutations(claim, stack)` that drains the queue. -/
inductive FlushKind where
  | callback (records : List MutationRecord)
  | unclaimed
  | claimed (claim : String) (stack : String)

/-- One flush: the page as the page scripts left it, and the way the batch is handed
over. -/
structure FlushStep where
  page : Page
  kind : FlushKind

/-- The batch a flush delivers. -/
def FlushStep.batch (f : FlushStep) : List MutationRecord :=
  match f.kind with
  | .callback records => records
  | .unclaimed => f.page.queue
  | .claimed _ _ => f.page.queue

/-- The claim label a flush is logged under. -/
def FlushStep.label (f : FlushStep) : String :=
  match f.kind with
  | .callback _ => "unclaimed"
  | .unclaimed => "unclaimed"
  | .claimed claim _ => claim

/-- The causal descriptor of a flush: `undefined` when unclaimed, else the stack trace. -/
def FlushStep.stack (f : FlushStep) : JSVal :=
  match f.kind with
  | .callback _ => .undefined
  | .unclaimed => .undefined
  | .claimed _ stack => .str stack

/-- Run one flush. -/
def FlushStep.run (f : FlushStep) (s : State) : State × Option DOMException :=
  match f.kind with
  | .callback records => logUnclaimedMutations (some records) { s with page := f.page }
  | .unclaimed => logUnclaimedMutations none { s with page := f.page }
  | .claimed claim stack => logClaimedMutations claim stack { s with page := f.page }

/-- Run a sequence of flushes, page scripts running in between. -/
def runFlushes : List FlushStep → State → State
  | [], s => s
  | f :: fs, s => runFlushes fs (f.run s).1

/-- The state right after the script has been set up on a page. -/
def State.start (dom : Dom) : State :=
  { past := [], future := [], lostFuture := [], isDoingOffRecordsMutations := 0,
    page := { dom := dom, queue := [] }, loggedRecords := [], breakpointCalls := [] }

/-- A page script write, seen from the engine state: only the page changes. -/
def State.write (w : Write) (s : State) : State := { s with page := w.run s.page }

/-- A flush of the queue by the observer (`logUnclaimedMutations` called with the queued
records). -/
def State.flush (s : State) : State := (logUnclaimedMutations none s).1

/-- States reached from an empty history by page script writes (all of them seen by the
observer), flushes of the queue, `undo()` and `redo()`. -/
inductive Reachable : State → Prop
  | start (dom : Dom) : Reachable (State.start dom)
  | write (w : Write) (s : State) : Reachable s → Reachable (s.write w)
  | flush (s : State) : Reachable s → Reachable s.flush
  | undo (s : State) : Reachable s → Reachable (undo s).1
  | redo (s : State) : Reachable s → Reachable (redo s).1

/-! ## A small page used in the examples -/

/-- A page with a root element `0` (`class="d"`) whose children are the elements `1`, `2`
and `3`; element `1` holds the text node `4` (`"hello"`). -/
def exampleDom : Dom :=
  { attributes := fun n a => if n = 0 ∧ a = "class" then some "d" else none,
    nodeValue := fun n => if n = 4 then some "hello" else none,
    parentNode := fun n => if n = 1 ∨ n = 2 ∨ n = 3 then some 0
                           else if n = 4 then some 1 else none,
    childNodes := fun n => if n = 0 then [1, 2, 3] else if n = 1 then [4] else [],
    size := 5 }

/-- Three changes of `class` on the root, with old values `"a"`, `"b"`, `"c"`. -/
def classBatch : List MutationRecord :=
  [MutationRecord.attr 0 "class" (some "a"), MutationRecord.attr 0 "class" (some "b"),
   MutationRecord.attr 0 "class" (some "c")]

/-- Two changes of `class` on the root, the second one made while the value was the empty
string. -/
def emptyStringBatch : List MutationRecord :=
  [MutationRecord.attr 0 "class" (some "a"), MutationRecord.attr 0 "class" (some "")]

/-- The example page with an empty history and the counter raised. -/
def guardedState : State :=
  { State.start exampleDom with isDoingOffRecordsMutations := 1 }

/-- The example page after a script has set `class` on the root to `""` and then to `"b"`,
the observer has flushed both records, and `undo()` has been called once. -/
def threadedState : State :=
  (undo (((State.start exampleDom).write (.setAttribute 0 "class" "")).write
    (.setAttribute 0 "class" "b")).flush).1

/-- The example page after a script has added the attribute `title="x"` to element `2` and
the observer has flushed the record. -/
def addedAttributeState : State :=
  ((State.start exampleDom).write (.setAttribute 2 "title" "x")).flush

/-- The example page after a script has removed `class` from the root and the observer
has flushed the record. -/
def removedAttributeState : State :=
  ((State.start exampleDom).write (.removeAttribute 0 "class")).flush

/-- The state `removedAttributeState` after `undo()` has been called: the removal is on
`future`, ready to redo. -/
def undoneRemovalState : State := (undo removedAttributeState).1

/-- A state with a non-empty `future`: the example page after a script has set `title` on
element `2`, the record has been flushed, and `undo()` has been called. -/
def reviewingState : State := (undo addedAttributeState).1

/-- The insertion of element `2` before element `3` under the root. -/
def insertionRecord : MutationRecord := MutationRecord.children 0 [2] [] (some 3)

/-- A flush that reaches the script while `reviewingState` has a future: the observer
callback with the two records of `emptyStringBatch`. -/
def lateFlush : FlushStep :=
  { page := reviewingState.page, kind := .callback emptyStringBatch }

/-- A native operation as a page script would call it through the wrapper: set `class` on
the root to `"z"`. -/
def nativeSetClass (p : Page) : Page × Option DOMException :=
  (p.setAttribute 0 "class" (.str "z"), none)

/-- Two flushes on the example page: the observer callback with `classBatch`, then a
claimed flush of one queued text record. -/
def exampleFlushes : List FlushStep :=
  [{ page := { dom := exampleDom, queue := [] }, kind := .callback classBatch },
   { page := { dom := exampleDom, queue := [MutationRecord.text 4 (some "hi")] },
     kind := .claimed "set nodeValue" "at f (app.js:1:1)" }]

/-- A stale removal record: element `2` removed from the root, with next sibling the text
node `4`, which is not a child of the root. -/
def staleRemoval : MutationRecord := MutationRecord.children 0 [] [2] (some 4)

/-- A stale insertion record: element `2` inserted under the root before the text node `4`,
which is not a child of the root. -/
def staleInsertion : MutationRecord := MutationRecord.children 0 [2] [] (some 4)

/-- The example page with a stale removal as last entry of `past` and a stale insertion as
last entry of `future`. -/
def staleState : State :=
  { State.start exampleDom with past := [staleRemoval], future := [staleInsertion] }

/-- The example page after element `2` has been removed from the root. -/
def detachedPage : Page := Page.remove 2 { dom := exampleDom, queue := [] }

/-- The removal of element `2` from the root, where it stood before element `3`. -/
def removalRecord : MutationRecord := MutationRecord.children 0 [] [2] (some 3)

/-- The example page after a script has set `class` on the root to `"e"` and the text of
node `4` to `"bye"`; both records are still in the observer queue. -/
def pendingState : State :=
  ((State.start exampleDom).write (.setAttribute 0 "class" "e")).write (.setNodeValue 4 "bye")

/-- The example page after a script has added the attribute `constructor="y"` to the root
and then set `class` to `"e"`; both records are still in the observer queue. -/
def constructorState : State :=
  ((State.start exampleDom).write (.setAttribute 0 "constructor" "y")).write
    (.setAttribute 0 "class" "e")

/-- The record of the addition of an attribute named `constructor` to the root. -/
def constructorRecord : MutationRecord := MutationRecord.attr 0 "constructor" none

/-- The example page after a script has added the attribute `constructor="y"` to the root
and the observer has handed over the record. -/
def constructorAddedState : State :=
  (takeRecords ((State.start exampleDom).write (.setAttribute 0 "constructor" "y"))).2

/-- A flush on the example page whose batch holds two changes of the text node `4` (old
values `"a"` and `""`, the text now being `"hello"`) around a change of `class`. -/
def textFlush : FlushStep :=
  { page := { dom := exampleDom, queue := [] },
    kind := .callback [MutationRecord.text 4 (some "a"), MutationRecord.attr 0 "class" (some "c"),
                       MutationRecord.text 4 (some "")] }

/-- A flush of one attribute record by `logClaimedMutations` on the example page. -/
def claimedFlush : FlushStep :=
  { page := { dom := exampleDom, queue := [MutationRecord.attr 0 "class" (some "a")] },
    kind := .claimed "set className" "at f (app.js:1:1)" }

/-- The state `reviewingState` after a script has set `class` on the root to `"e"` and then
to `"f"`; both records are still in the observer queue. -/
def lateClassChanges : State :=
  (reviewingState.write (.setAttribute 0 "class" "e")).write (.setAttribute 0 "class" "f")

/-- The state `reviewingState` after a script has added the attribute `title="y"` to
element `3`; the record is still in the observer queue. -/
def lateAddition : State := reviewingState.write (.setAttribute 3 "title" "y")

/-! ## Basic facts about the engine -/

theorem takeRecords_of_empty (s : State) (hq : s.page.queue = []) :
    takeRecords s = ([], s) := by
  obtain ⟨past, future, lost, g, ⟨dom, queue⟩, logs, bps⟩ := s
  simp only at hq
  subst hq
  rfl

theorem logUnclaimedMutations_nil (s : State) :
    logUnclaimedMutations (some []) s = (s, none) := by
  simp [logUnclaimedMutations]

theorem undo_of_idle (s : State) (hq : s.page.queue = []) :
    undo s =
      match s.past.getLast? with
      | none => (s, none)
      | some mutation =>
        ({ s with past := s.past.dropLast, future := s.future ++ [mutation],
                  page := { dom := (undoMutationRecord mutation s.page).1.dom, queue := [] } },
         (undoMutationRecord mutation s.page).2) := by
  unfold undo
  rw [takeRecords_of_empty s hq]
  simp only [logUnclaimedMutations_nil]
  cases h : s.past.getLast? with
  | none => simp
  | some m => simp [takeRecords]

theorem redo_of_idle (s : State) (hq : s.page.queue = []) :
    redo s =
      match s.future.getLast? with
      | none => (s, none)
      | some mutation =>
        ({ s with future := s.future.dropLast, past := s.past ++ [mutation],
                  page := { dom := (redoMutationRecord mutation s.page).1.dom, queue := [] } },
         (redoMutationRecord mutation s.page).2) := by
  unfold redo
  rw [takeRecords_of_empty s hq]
  simp only [logUnclaimedMutations_nil]
  cases h : s.future.getLast? with
  | none => simp
  | some m => simp [takeRecords]

theorem undo_queue (s : State) (hq : s.page.queue = []) : (undo s).1.page.queue = [] := by
  rw [undo_of_idle s hq]
  cases h : s.past.getLast? with
  | none => simpa using hq
  | some m => simp

theorem getAttribute_state (target : Node) (name : String) (s : State) :
    (getAttribute target name s).2 = s := by
  cases s
  simp [getAttribute]

theorem getAttribute_value (target : Node) (name : String) (s : State) :
    (getAttribute target name s).1 = JSVal.ofOption (s.page.dom.attributes target name) := by
  simp [getAttribute, Page.getAttribute]

theorem reconstructRecord_state (stack : JSVal) (r : MutationRecord) (m : Latest) (s : State) :
    (reconstructRecord stack r m s).2.2 =
      { s with breakpointCalls := s.breakpointCalls ++ [(reconstructRecord stack r m s).1] } := by
  unfold reconstructRecord
  split
  · simp only
    split <;> simp [getAttribute_state]
  · rfl
  · rfl

theorem reconstructRecord_event (stack : JSVal) (r : MutationRecord) (m : Latest) (s : State) :
    (reconstructRecord stack r m s).1.event = r.event := by
  unfold reconstructRecord
  split <;> rfl

theorem reconstructLoop_state (stack : JSVal) (rs : List MutationRecord) (m : Latest)
    (s : State) :
    ∃ calls, (reconstructLoop stack rs m s).2.2 = { s with breakpointCalls := calls } := by
  induction rs with
  | nil => exact ⟨s.breakpointCalls, rfl⟩
  | cons r rs ih =>
    obtain ⟨calls, h⟩ := ih
    simp only [reconstructLoop, reconstructRecord_state, h]
    exact ⟨_, rfl⟩

theorem reconstructLoop_events (stack : JSVal) (rs : List MutationRecord) (m : Latest)
    (s : State) :
    (reconstructLoop stack rs m s).1.map MutationRecord.event = rs.map MutationRecord.event := by
  induction rs with
  | nil => rfl
  | cons r rs ih => simp [reconstructLoop, reconstructRecord_event, ih]

theorem postProcessSingle_event (r : MutationRecord) (stack : JSVal) (s : State) :
    ∃ r1 calls, postProcessSingle r stack s =
        ([r1], { s with past := s.past ++ [r1], breakpointCalls := calls }, none) ∧
      r1.event = r.event := by
  obtain ⟨ty, target, name, old, added, removed, next, new, st⟩ := r
  cases ty <;> simp only [postProcessSingle, getAttribute_state] <;> exact ⟨_, _, rfl, rfl⟩

theorem postProcessRecords_commit (rs : List MutationRecord) (stack : JSVal) (s : State)
    (hfuture : s.future = []) :
    ∃ entries calls, postProcessRecords rs stack s =
        (entries, { s with past := s.past ++ entries, breakpointCalls := calls }, none) ∧
      entries.map MutationRecord.event = rs.map MutationRecord.event := by
  unfold postProcessRecords
  rw [if_neg (by simp [hfuture])]
  split
  · next r =>
    obtain ⟨r1, calls, h, he⟩ := postProcessSingle_event r stack s
    exact ⟨[r1], calls, h, by simp [he]⟩
  · obtain ⟨calls, h⟩ := reconstructLoop_state stack rs Latest.empty s
    refine ⟨_, calls, ?_, reconstructLoop_events stack rs Latest.empty s⟩
    simp only [h]

/-- Outcome of a committing flush, field by field. -/
theorem logUnclaimedMutations_commit (rs : List MutationRecord) (s : State)
    (hfuture : s.future = []) :
    ∃ entries, (logUnclaimedMutations (some rs) s).2 = none ∧
      (logUnclaimedMutations (some rs) s).1.past = s.past ++ entries ∧
      entries.map MutationRecord.event = rs.map MutationRecord.event ∧
      (logUnclaimedMutations (some rs) s).1.future = [] ∧
      (logUnclaimedMutations (some rs) s).1.lostFuture = s.lostFuture := by
  obtain ⟨entries, calls, h, he⟩ := postProcessRecords_commit rs .undefined s hfuture
  by_cases hrs : rs = []
  · subst hrs
    exact ⟨[], by simp [logUnclaimedMutations, hfuture]⟩
  · have hlen : rs.length ≠ 0 := by simpa using hrs
    refine ⟨entries, ?_⟩
    simp only [logUnclaimedMutations, hlen, ne_eq, not_false_eq_true, if_true, h]
    split <;> simp [he, hfuture]

theorem logClaimedMutations_eq (claim stack : String) (s : State) :
    logClaimedMutations claim stack s =
      if s.page.queue.length ≠ 0 then
        match postProcessRecords s.page.queue (.str stack) (takeRecords s).2 with
        | (_, s1, some e) => (s1, some e)
        | (records, s1, none) =>
          if records.length ≠ 0 then
            ({ s1 with loggedRecords := s1.loggedRecords ++ [⟨claim, records, .str stack⟩] }, none)
          else (s1, none)
      else ((takeRecords s).2, none) := rfl

theorem logClaimedMutations_commit (claim stack : String) (s : State)
    (hfuture : s.future = []) :
    ∃ entries, (logClaimedMutations claim stack s).2 = none ∧
      (logClaimedMutations claim stack s).1.past = s.past ++ entries ∧
      entries.map MutationRecord.event = s.page.queue.map MutationRecord.event ∧
      (logClaimedMutations claim stack s).1.future = [] ∧
      (logClaimedMutations claim stack s).1.lostFuture = s.lostFuture := by
  have hf : (takeRecords s).2.future = [] := hfuture
  obtain ⟨entries, calls, h, he⟩ :=
    postProcessRecords_commit s.page.queue (.str stack) (takeRecords s).2 hf
  rw [logClaimedMutations_eq]
  by_cases hrs : s.page.queue = []
  · exact ⟨[], by simp [hrs, takeRecords, hfuture]⟩
  · have hlen : s.page.queue.length ≠ 0 := by simpa using hrs
    refine ⟨entries, ?_⟩
    simp only [hlen, ne_eq, not_false_eq_true, if_true, h]
    split <;> simp [he, hfuture, takeRecords]

theorem logUnclaimedMutations_drain (s : State) :
    logUnclaimedMutations none s = logUnclaimedMutations (some s.page.queue) (takeRecords s).2 :=
  rfl

theorem FlushStep.run_commit (f : FlushStep) (s : State) (hfuture : s.future = []) :
    ∃ entries, (f.run s).2 = none ∧
      (f.run s).1.past = s.past ++ entries ∧
      entries.map MutationRecord.event = f.batch.map MutationRecord.event ∧
      (f.run s).1.future = [] ∧
      (f.run s).1.lostFuture = s.lostFuture := by
  obtain ⟨page, kind⟩ := f
  cases kind with
  | callback records =>
    exact logUnclaimedMutations_commit records { s with page := page } hfuture
  | unclaimed =>
    simp only [FlushStep.run, FlushStep.batch, logUnclaimedMutations_drain]
    exact logUnclaimedMutations_commit page.queue (takeRecords { s with page := page }).2 hfuture
  | claimed claim stack =>
    exact logClaimedMutations_commit claim stack { s with page := page } hfuture

theorem postProcessRecords_cancel (rs : List MutationRecord) (stack : JSVal) (s : State)
    (hfuture : s.future ≠ []) :
    postProcessRecords rs stack s =
      ([], { s with lostFuture := s.lostFuture ++ rs,
                    page := { dom := (undoEach rs.reverse s.page).1.dom, queue := [] } },
       (undoEach rs.reverse s.page).2) := by
  have hlen : s.future.length > 0 := List.length_pos.mpr hfuture
  obtain ⟨past, future, lost, g, page, logs, bps⟩ := s
  simp only at hlen
  simp [postProcessRecords, hlen, takeRecords]

theorem logUnclaimedMutations_cancel (rs : List MutationRecord) (s : State)
    (hfuture : s.future ≠ []) (hrs : rs ≠ []) :
    logUnclaimedMutations (some rs) s =
      ({ s with lostFuture := s.lostFuture ++ rs,
                page := { dom := (undoEach rs.reverse s.page).1.dom, queue := [] } },
       (undoEach rs.reverse s.page).2) := by
  have hlen : rs.length ≠ 0 := by simpa using hrs
  simp only [logUnclaimedMutations, hlen, ne_eq, not_false_eq_true, if_true,
    postProcessRecords_cancel rs .undefined s hfuture]
  cases (undoEach rs.reverse s.page).2 <;> simp

theorem logClaimedMutations_cancel (claim stack : String) (s : State)
    (hfuture : s.future ≠ []) (hrs : s.page.queue ≠ []) :
    logClaimedMutations claim stack s =
      ({ s with lostFuture := s.lostFuture ++ s.page.queue,
                page := { dom := (undoEach s.page.queue.reverse
                            { s.page with queue := [] }).1.dom, queue := [] } },
       (undoEach s.page.queue.reverse { s.page with queue := [] }).2) := by
  have hlen : s.page.queue.length ≠ 0 := by simpa using hrs
  have hf : (takeRecords s).2.future ≠ [] := hfuture
  rw [logClaimedMutations_eq, if_pos hlen, postProcessRecords_cancel _ _ _ hf]
  have hp : (takeRecords s).2.page = { s.page with queue := [] } := rfl
  rw [hp]
  cases h : (undoEach s.page.queue.reverse { s.page with queue := [] }).2 <;>
    simp [takeRecords, h]

theorem FlushStep.run_cancel (f : FlushStep) (s : State)
    (hfuture : s.future ≠ []) (hbatch : f.batch ≠ []) :
    (f.run s).1.past = s.past ∧ (f.run s).1.future = s.future ∧
    (f.run s).1.lostFuture = s.lostFuture ++ f.batch := by
  obtain ⟨page, kind⟩ := f
  cases kind with
  | callback records =>
    simp only [FlushStep.run, FlushStep.batch] at hbatch ⊢
    have hf : ({ s with page := page } : State).future ≠ [] := hfuture
    rw [logUnclaimedMutations_cancel records _ hf hbatch]
    exact ⟨rfl, rfl, rfl⟩
  | unclaimed =>
    simp only [FlushStep.run, FlushStep.batch, logUnclaimedMutations_drain] at hbatch ⊢
    have hf : (takeRecords { s with page := page }).2.future ≠ [] := hfuture
    rw [logUnclaimedMutations_cancel page.queue _ hf hbatch]
    exact ⟨rfl, rfl, rfl⟩
  | claimed claim stack =>
    simp only [FlushStep.run, FlushStep.batch] at hbatch ⊢
    have hf : ({ s with page := page } : State).future ≠ [] := hfuture
    rw [logClaimedMutations_cancel claim stack _ hf hbatch]
    exact ⟨rfl, rfl, rfl⟩

theorem Page.remove_detached (n : Node) (p : Page) (h : p.dom.parentNode n = none) :
    p.remove n = p := by
  simp [Page.remove, h]

theorem Page.remove_attached (n par : Node) (p : Page) (h : p.dom.parentNode n = some par) :
    p.remove n =
      { dom := { p.dom with
          parentNode := fun m => if m = n then none else p.dom.parentNode m,
          childNodes := fun m => if m = par then (p.dom.childNodes par).erase n
                                 else p.dom.childNodes m },
        queue := p.queue ++
          [MutationRecord.children par [] [n] (nextSiblingIn n (p.dom.childNodes par))] } := by
  simp [Page.remove, h]

theorem Dom.inclusiveAncestors_congr (d d1 : Dom) (fuel : Nat) (t : Node)
    (h : ∀ m ∈ d.inclusiveAncestors fuel t, d1.parentNode m = d.parentNode m) :
    d1.inclusiveAncestors fuel t = d.inclusiveAncestors fuel t := by
  induction fuel generalizing t with
  | zero => rfl
  | succ fuel ih =>
    have ht : d1.parentNode t = d.parentNode t := by
      apply h
      unfold Dom.inclusiveAncestors
      cases d.parentNode t <;> simp
    unfold Dom.inclusiveAncestors
    rw [ht]
    cases hp : d.parentNode t with
    | none => rfl
    | some q =>
      simp only
      rw [ih q]
      intro m hm
      apply h
      unfold Dom.inclusiveAncestors
      rw [hp]
      exact List.mem_cons_of_mem _ hm

/-- Removing the children `del` of `t`: what is left of the child list, and the parent
pointers afterwards. -/
theorem removeEach_children (t : Node) (del : List Node) (p : Page)
    (hparent : ∀ a ∈ del, p.dom.parentNode a = some t) (hnodup : del.Nodup) :
    (removeEach del p).dom.childNodes t = (p.dom.childNodes t).diff del ∧
    (∀ a ∈ del, (removeEach del p).dom.parentNode a = none) ∧
    (∀ m, m ∉ del → (removeEach del p).dom.parentNode m = p.dom.parentNode m) ∧
    (removeEach del p).dom.size = p.dom.size := by
  induction del generalizing p with
  | nil => simp [removeEach]
  | cons a del ih =>
    have ha : p.dom.parentNode a = some t := hparent a (List.mem_cons_self _ _)
    have hnd : a ∉ del ∧ del.Nodup := List.nodup_cons.mp hnodup
    have hrest : ∀ b ∈ del, (p.remove a).dom.parentNode b = some t := by
      intro b hb
      have hba : b ≠ a := fun h => hnd.1 (h ▸ hb)
      rw [Page.remove_attached a t p ha]
      simp [hba, hparent b (List.mem_cons_of_mem _ hb)]
    obtain ⟨h1, h2, h3, h4⟩ := ih (p.remove a) hrest hnd.2
    simp only [removeEach]
    refine ⟨?_, ?_, ?_, ?_⟩
    · rw [h1, Page.remove_attached a t p ha]
      simp [List.diff_cons]
    · intro b hb
      rcases List.mem_cons.mp hb with rfl | hb
      · rw [h3 b hnd.1, Page.remove_attached b t p ha]
        simp
      · exact h2 b hb
    · intro m hm
      have hma : m ≠ a := fun h => hm (h ▸ List.mem_cons_self _ _)
      rw [h3 m (fun h => hm (List.mem_cons_of_mem _ h)), Page.remove_attached a t p ha]
      simp [hma]
    · rw [h4, Page.remove_attached a t p ha]

theorem insertInto_none (n : Node) (l : List Node) : insertInto n none l = l ++ [n] := by
  induction l with
  | nil => rfl
  | cons x xs ih => simp [insertInto, ih]

theorem insertInto_before (n c : Node) (l1 l2 : List Node) (h : c ∉ l1) :
    insertInto n (some c) (l1 ++ c :: l2) = l1 ++ n :: c :: l2 := by
  induction l1 with
  | nil => simp [insertInto]
  | cons x xs ih =>
    have hx : c ≠ x := fun e => h (e ▸ List.mem_cons_self _ _)
    have hxs : c ∉ xs := fun e => h (List.mem_cons_of_mem _ e)
    simp [insertInto, hx, ih hxs]

theorem insertInto_head (n : Node) (l1 l2 : List Node)
    (h : ∀ c, l2.head? = some c → c ∉ l1) :
    insertInto n l2.head? (l1 ++ l2) = l1 ++ n :: l2 := by
  cases l2 with
  | nil => simp [insertInto_none]
  | cons c l2 => exact insertInto_before n c l1 l2 (h c rfl)

theorem Page.insertBefore_detached (p : Page) (t n : Node) (child : Option Node)
    (hanc : n ∉ p.dom.inclusiveAncestors p.dom.size t)
    (hchild : ∀ c, child = some c → p.dom.parentNode c = some t)
    (hdet : p.dom.parentNode n = none) (hne : child ≠ some n) :
    p.insertBefore t n child = (p.attach t n child, none) := by
  have hc : p.dom.notChildOf t child = false := by
    cases child with
    | none => rfl
    | some c => simp [Dom.notChildOf, hchild c rfl]
  unfold Page.insertBefore
  rw [if_neg hanc, hc]
  simp [hne, Page.remove_detached n p hdet]

theorem insertEachBefore_children (t : Node) (xs ys : List Node) (l done : List Node)
    (p : Page)
    (hchildren : p.dom.childNodes t = xs ++ done ++ ys)
    (hnodup : (xs ++ l.reverse ++ done ++ ys).Nodup)
    (hdet : ∀ a ∈ l, p.dom.parentNode a = none)
    (hhead : ∀ c, (done ++ ys).head? = some c → p.dom.parentNode c = some t)
    (hanc : ∀ a ∈ l, a ∉ p.dom.inclusiveAncestors p.dom.size t) :
    (insertEachBefore t l (done ++ ys).head? p).2 = none ∧
    (insertEachBefore t l (done ++ ys).head? p).1.dom.childNodes t =
      xs ++ l.reverse ++ done ++ ys := by
  induction l generalizing done p with
  | nil => simpa [insertEachBefore] using hchildren
  | cons n ns ih =>
    have hnd : (xs ++ ns.reverse ++ (n :: done) ++ ys).Nodup := by
      simpa [List.append_assoc] using hnodup
    have hmid : ((xs ++ ns.reverse) ++ n :: (done ++ ys)).Nodup := by
      simpa [List.append_assoc] using hnodup
    have hn_all : n ∉ (xs ++ ns.reverse) ++ (done ++ ys) :=
      (List.nodup_cons.mp (List.nodup_middle.mp hmid)).1
    have hn_notin : n ∉ xs ∧ n ∉ ns ∧ n ∉ done ∧ n ∉ ys := by
      simp only [List.mem_append, List.mem_reverse, not_or] at hn_all
      exact ⟨hn_all.1.1, hn_all.1.2, hn_all.2.1, hn_all.2.2⟩
    have hne : (done ++ ys).head? ≠ some n := by
      intro h
      have : n ∈ done ++ ys := List.mem_of_mem_head? h
      rcases List.mem_append.mp this with h1 | h1
      · exact hn_notin.2.2.1 h1
      · exact hn_notin.2.2.2 h1
    have hstep := Page.insertBefore_detached p t n (done ++ ys).head?
      (hanc n (List.mem_cons_self _ _)) hhead (hdet n (List.mem_cons_self _ _)) hne
    have hqc : (p.attach t n (done ++ ys).head?).dom.childNodes t =
        insertInto n (done ++ ys).head? (p.dom.childNodes t) := by
      simp [Page.attach]
    have hqp : ∀ m, (p.attach t n (done ++ ys).head?).dom.parentNode m =
        if m = n then some t else p.dom.parentNode m := fun m => rfl
    have hqs : (p.attach t n (done ++ ys).head?).dom.size = p.dom.size := rfl
    have hins : insertInto n (done ++ ys).head? (p.dom.childNodes t) =
        xs ++ (n :: done) ++ ys := by
      rw [hchildren, List.append_assoc, insertInto_head]
      · simp
      · intro c hc hcx
        have hcm : c ∈ done ++ ys := List.mem_of_mem_head? hc
        have hsplit : (xs ++ (ns.reverse ++ n :: (done ++ ys))).Nodup := by
          simpa [List.append_assoc] using hnodup
        have hdis := (List.nodup_append.mp hsplit).2.2
        exact hdis hcx (List.mem_append_right _ (List.mem_cons_of_mem _ hcm))
    have key := ih (n :: done) (p.attach t n (done ++ ys).head?) (hqc.trans hins) hnd
      (by
        intro a ha
        have han : a ≠ n := fun h => hn_notin.2.1 (h ▸ ha)
        rw [hqp a, if_neg han]
        exact hdet a (List.mem_cons_of_mem _ ha))
      (by
        intro c hc
        simp only [List.cons_append, List.head?_cons, Option.some.injEq] at hc
        rw [hqp c, if_pos hc.symm])
      (by
        intro a ha
        have hcongr := Dom.inclusiveAncestors_congr p.dom (p.attach t n (done ++ ys).head?).dom p.dom.size t
          (by
            intro m hm
            have hmn : m ≠ n := fun h => hanc n (List.mem_cons_self _ _) (h ▸ hm)
            rw [hqp m, if_neg hmn])
        rw [hqs, hcongr]
        exact hanc a (List.mem_cons_of_mem _ ha))
    simp only [insertEachBefore, hstep]
    simpa [List.append_assoc] using key

theorem diff_middle (xs added ys : List Node) (hnodup : (xs ++ added ++ ys).Nodup) :
    (xs ++ added ++ ys).diff added.reverse = xs ++ ys := by
  rw [List.Nodup.diff_eq_filter hnodup]
  have hx : ∀ a ∈ xs, a ∉ added := by
    intro a ha had
    have := (List.nodup_append.mp (List.nodup_append.mp hnodup).1).2.2
    exact this ha had
  have hy : ∀ a ∈ ys, a ∉ added := by
    intro a ha had
    have := (List.nodup_append.mp hnodup).2.2
    exact this (List.mem_append_right _ had) ha
  simp only [List.filter_append]
  rw [List.filter_eq_self.mpr, List.filter_eq_nil_iff.mpr, List.filter_eq_self.mpr]
  · simp
  · intro a ha
    simpa using hy a ha
  · intro a ha
    simpa using ha
  · intro a ha
    simpa using hx a ha

/-- Applied backward, an attribute event whose old value is a string leaves that string
in the attribute. -/
theorem undoMutationRecord_attribute (change : MutationRecord) (p : Page) (v : String)
    (htype : change.type = .attributes) (hold : change.oldValue = some v) :
    (undoMutationRecord change p).1.dom.attributes change.target
      (attrKey change.attributeName) = some v := by
  simp [undoMutationRecord, htype, hold, Page.setAttribute, JSVal.ofOption, JSVal.toDOMString]

/-- Applied forward, an attribute event whose new value is a string leaves that string in
the attribute. -/
theorem redoMutationRecord_attribute (change : MutationRecord) (p : Page) (v : String)
    (htype : change.type = .attributes) (hnew : change.newValue = .str v) :
    (redoMutationRecord change p).1.dom.attributes change.target
      (attrKey change.attributeName) = some v := by
  simp [redoMutationRecord, htype, hnew, Page.setAttribute, JSVal.toDOMString]

theorem postProcessRecords_counter (rs : List MutationRecord) (stack : JSVal) (s : State) :
    (postProcessRecords rs stack s).2.1.isDoingOffRecordsMutations =
      s.isDoingOffRecordsMutations := by
  by_cases hf : s.future = []
  · obtain ⟨entries, calls, h, -⟩ := postProcessRecords_commit rs stack s hf
    rw [h]
  · rw [postProcessRecords_cancel rs stack s hf]

theorem logUnclaimedMutations_counter (input : Option (List MutationRecord)) (s : State) :
    (logUnclaimedMutations input s).1.isDoingOffRecordsMutations =
      s.isDoingOffRecordsMutations := by
  have key : ∀ rs (t : State), (logUnclaimedMutations (some rs) t).1.isDoingOffRecordsMutations =
      t.isDoingOffRecordsMutations := by
    intro rs t
    have h := postProcessRecords_counter rs .undefined t
    simp only [logUnclaimedMutations]
    split
    · split
      · next heq => rw [heq] at h; exact h
      · next heq =>
        rw [heq] at h
        split <;> exact h
    · rfl
  cases input with
  | some rs => exact key rs s
  | none =>
    rw [logUnclaimedMutations_drain, key]
    rfl

theorem logClaimedMutations_counter (claim stack : String) (s : State) :
    (logClaimedMutations claim stack s).1.isDoingOffRecordsMutations =
      s.isDoingOffRecordsMutations := by
  have h := postProcessRecords_counter s.page.queue (.str stack) (takeRecords s).2
  rw [logClaimedMutations_eq]
  split
  · split
    · next heq => rw [heq] at h; exact h
    · next heq =>
      rw [heq] at h
      split <;> exact h
  · rfl

theorem undo_counter (s : State) :
    (undo s).1.isDoingOffRecordsMutations = s.isDoingOffRecordsMutations := by
  have h := logUnclaimedMutations_counter (some (takeRecords s).1) (takeRecords s).2
  unfold undo
  split
  · next heq => rw [heq] at h; exact h
  · next s1 heq =>
    rw [heq] at h
    split
    · exact h
    · simpa [takeRecords] using h

theorem redo_counter (s : State) :
    (redo s).1.isDoingOffRecordsMutations = s.isDoingOffRecordsMutations := by
  have h := logUnclaimedMutations_counter (some (takeRecords s).1) (takeRecords s).2
  unfold redo
  split
  · next heq => rw [heq] at h; exact h
  · next s1 heq =>
    rw [heq] at h
    split
    · exact h
    · simpa [takeRecords] using h

theorem FlushStep.run_counter (f : FlushStep) (s : State) :
    (f.run s).1.isDoingOffRecordsMutations = s.isDoingOffRecordsMutations := by
  obtain ⟨page, kind⟩ := f
  cases kind with
  | callback records => exact logUnclaimedMutations_counter (some records) _
  | unclaimed => exact logUnclaimedMutations_counter none _
  | claimed claim stack => exact logClaimedMutations_counter claim stack _

theorem Reachable.counter_zero (s : State) (h : Reachable s) :
    s.isDoingOffRecordsMutations = 0 := by
  induction h with
  | start dom => rfl
  | write w s _ ih => exact ih
  | flush s _ ih => exact (logUnclaimedMutations_counter none s).trans ih
  | undo s _ ih => exact (undo_counter s).trans ih
  | redo s _ ih => exact (redo_counter s).trans ih

theorem logUnclaimedMutations_commit_eq (rs : List MutationRecord) (s : State)
    (hfuture : s.future = []) (hrs : rs ≠ []) :
    ∃ entries calls, logUnclaimedMutations (some rs) s =
        ({ s with past := s.past ++ entries, breakpointCalls := calls,
                  loggedRecords := s.loggedRecords ++ [⟨"unclaimed", entries, .undefined⟩] },
         none) ∧
      entries.map MutationRecord.event = rs.map MutationRecord.event := by
  obtain ⟨entries, calls, h, he⟩ := postProcessRecords_commit rs .undefined s hfuture
  have hlen : rs.length ≠ 0 := by simpa using hrs
  have hlen' : entries.length ≠ 0 := by
    have : entries.length = rs.length := by simpa using congrArg List.length he
    omega
  refine ⟨entries, calls, ?_, he⟩
  simp only [logUnclaimedMutations, hlen, ne_eq, not_false_eq_true, if_true, h, hlen']

theorem logClaimedMutations_commit_eq (claim stack : String) (s : State)
    (hfuture : s.future = []) (hrs : s.page.queue ≠ []) :
    ∃ entries calls, logClaimedMutations claim stack s =
        ({ s with past := s.past ++ entries, breakpointCalls := calls,
                  page := { s.page with queue := [] },
                  loggedRecords := s.loggedRecords ++ [⟨claim, entries, .str stack⟩] },
         none) ∧
      entries.map MutationRecord.event = s.page.queue.map MutationRecord.event := by
  have hf : (takeRecords s).2.future = [] := hfuture
  obtain ⟨entries, calls, h, he⟩ :=
    postProcessRecords_commit s.page.queue (.str stack) (takeRecords s).2 hf
  have hlen : s.page.queue.length ≠ 0 := by simpa using hrs
  have hlen' : entries.length ≠ 0 := by
    have : entries.length = s.page.queue.length := by simpa using congrArg List.length he
    omega
  refine ⟨entries, calls, ?_, he⟩
  rw [logClaimedMutations_eq, if_pos hlen, h]
  simp only [hlen', ne_eq, not_false_eq_true, if_true]
  rfl

theorem undo_after_flush (s s1 : State) (m : MutationRecord)
    (hflush : logUnclaimedMutations (some s.page.queue) (takeRecords s).2 = (s1, none))
    (hlast : s1.past.getLast? = some m) :
    undo s =
      ({ s1 with past := s1.past.dropLast, future := s1.future ++ [m],
                 page := { dom := (undoMutationRecord m s1.page).1.dom, queue := [] } },
       (undoMutationRecord m s1.page).2) := by
  have h2 : (takeRecords s).1 = s.page.queue := rfl
  unfold undo
  rw [h2, hflush]
  simp [hlast, takeRecords]

theorem FlushStep.run_commit_logged (f : FlushStep) (s : State) (hfuture : s.future = [])
    (hbatch : f.batch ≠ []) :
    ∃ entries, entries.map MutationRecord.event = f.batch.map MutationRecord.event ∧
      (f.run s).2 = none ∧
      (f.run s).1.past = s.past ++ entries ∧
      (f.run s).1.loggedRecords = s.loggedRecords ++ [⟨f.label, entries, f.stack⟩] := by
  obtain ⟨page, kind⟩ := f
  cases kind with
  | callback records =>
    have hf : ({ s with page := page } : State).future = [] := hfuture
    obtain ⟨entries, calls, h, he⟩ := logUnclaimedMutations_commit_eq records _ hf hbatch
    refine ⟨entries, he, ?_, ?_, ?_⟩ <;> first | (simp only [FlushStep.run, h]; done) | (simp only [FlushStep.run, h]; rfl)
  | unclaimed =>
    have hf : (takeRecords { s with page := page }).2.future = [] := hfuture
    obtain ⟨entries, calls, h, he⟩ := logUnclaimedMutations_commit_eq page.queue _ hf hbatch
    refine ⟨entries, he, ?_, ?_, ?_⟩ <;>
      first
      | (simp only [FlushStep.run, logUnclaimedMutations_drain, h]; done)
      | (simp only [FlushStep.run, logUnclaimedMutations_drain, h]; rfl)
  | claimed claim stack =>
    have hf : ({ s with page := page } : State).future = [] := hfuture
    obtain ⟨entries, calls, h, he⟩ := logClaimedMutations_commit_eq claim stack _ hf hbatch
    refine ⟨entries, he, ?_, ?_, ?_⟩ <;> first | (simp only [FlushStep.run, h]; done) | (simp only [FlushStep.run, h]; rfl)

theorem FlushStep.run_cancel_logged (f : FlushStep) (s : State) (hfuture : s.future ≠ [])
    (hbatch : f.batch ≠ []) :
    (f.run s).1.loggedRecords = s.loggedRecords := by
  obtain ⟨page, kind⟩ := f
  cases kind with
  | callback records =>
    have hf : ({ s with page := page } : State).future ≠ [] := hfuture
    simp only [FlushStep.run]
    rw [logUnclaimedMutations_cancel records _ hf hbatch]
  | unclaimed =>
    have hf : (takeRecords { s with page := page }).2.future ≠ [] := hfuture
    simp only [FlushStep.run, logUnclaimedMutations_drain]
    rw [logUnclaimedMutations_cancel page.queue _ hf hbatch]
    rfl
  | claimed claim stack =>
    have hf : ({ s with page := page } : State).future ≠ [] := hfuture
    simp only [FlushStep.run]
    rw [logClaimedMutations_cancel claim stack _ hf hbatch]

theorem reconstructLoop_append (stack : JSVal) (a b : List MutationRecord) (m : Latest)
    (s : State) :
    reconstructLoop stack (a ++ b) m s =
      ((reconstructLoop stack a (reconstructLoop stack b m s).2.1
          (reconstructLoop stack b m s).2.2).1 ++ (reconstructLoop stack b m s).1,
       (reconstructLoop stack a (reconstructLoop stack b m s).2.1
          (reconstructLoop stack b m s).2.2).2.1,
       (reconstructLoop stack a (reconstructLoop stack b m s).2.1
          (reconstructLoop stack b m s).2.2).2.2) := by
  induction a with
  | nil => rfl
  | cons r a ih => simp [reconstructLoop, ih]

theorem reconstructLoop_length (stack : JSVal) (rs : List MutationRecord) (m : Latest)
    (s : State) : (reconstructLoop stack rs m s).1.length = rs.length := by
  simpa using congrArg List.length (reconstructLoop_events stack rs m s)

/-- The entry the general loop produces for the record that follows `pre`. -/
theorem reconstructLoop_getElem (stack : JSVal) (pre rest : List MutationRecord)
    (r : MutationRecord) (m : Latest) (s : State) :
    (reconstructLoop stack (pre ++ r :: rest) m s).1[pre.length]? =
      some (reconstructRecord stack r (reconstructLoop stack rest m s).2.1
        (reconstructLoop stack rest m s).2.2).1 := by
  rw [reconstructLoop_append]
  simp only
  rw [List.getElem?_append_right (by rw [reconstructLoop_length])]
  simp [reconstructLoop_length, reconstructLoop]

theorem reconstructRecord_text_latest (stack : JSVal) (r : MutationRecord) (m : Latest)
    (s : State) (htype : r.type = .characterData) :
    (reconstructRecord stack r m s).2.1.latestCharacterDataValues r.target =
      some r.oldValue := by
  simp [reconstructRecord, htype]

theorem reconstructRecord_text_other (stack : JSVal) (r : MutationRecord) (m : Latest)
    (s : State) (t : Node) (h : ¬ (r.type = .characterData ∧ r.target = t)) :
    (reconstructRecord stack r m s).2.1.latestCharacterDataValues t =
      m.latestCharacterDataValues t := by
  unfold reconstructRecord
  split
  · rfl
  · next htype =>
    have ht : t ≠ r.target := fun e => h ⟨htype, e.symm⟩
    simp [ht]
  · rfl

theorem reconstructLoop_text_other (stack : JSVal) (rs : List MutationRecord) (m : Latest)
    (s : State) (t : Node) (h : ∀ r ∈ rs, ¬ (r.type = .characterData ∧ r.target = t)) :
    (reconstructLoop stack rs m s).2.1.latestCharacterDataValues t =
      m.latestCharacterDataValues t := by
  induction rs with
  | nil => rfl
  | cons r rs ih =>
    simp only [reconstructLoop]
    rw [reconstructRecord_text_other stack r _ _ t (h r (List.mem_cons_self _ _))]
    exact ih (fun r' hr' => h r' (List.mem_cons_of_mem _ hr'))

/-- Text threading inside the general loop. -/
theorem reconstructLoop_text_threading (stack : JSVal) (mid post : List MutationRecord)
    (r1 r2 : MutationRecord) (m : Latest) (s : State) (v : String)
    (h1 : r1.type = .characterData) (h2 : r2.type = .characterData)
    (ht : r2.target = r1.target)
    (hmid : ∀ r ∈ mid, ¬ (r.type = .characterData ∧ r.target = r1.target))
    (hv : r2.oldValue = some v) :
    (reconstructRecord stack r1 (reconstructLoop stack (mid ++ r2 :: post) m s).2.1
        (reconstructLoop stack (mid ++ r2 :: post) m s).2.2).1 =
      { r1 with newValue := .str v, stack := stack } := by
  have hlatest : (reconstructLoop stack (mid ++ r2 :: post) m s).2.1.latestCharacterDataValues
      r1.target = some (some v) := by
    rw [reconstructLoop_append]
    simp only
    rw [reconstructLoop_text_other stack mid _ _ r1.target hmid]
    simp only [reconstructLoop]
    rw [← ht, reconstructRecord_text_latest stack r2 _ _ h2, hv]
  simp [reconstructRecord, h1, hlatest, JSVal.ofOption, JSVal.looseNeUndefined]

theorem postProcessGeneral_past (rs : List MutationRecord) (stack : JSVal) (s : State) :
    (postProcessGeneral rs stack s).2.1.past =
      s.past ++ (reconstructLoop stack rs Latest.empty s).1 ∧
    (postProcessGeneral rs stack s).2.2 = none ∧
    (postProcessGeneral rs stack s).1 = (reconstructLoop stack rs Latest.empty s).1 := by
  obtain ⟨calls, h⟩ := reconstructLoop_state stack rs Latest.empty s
  simp [postProcessGeneral, h]

theorem PlainObject.get_empty_ordinary (key : String) (h : key ∉ objectPrototypeProps) :
    PlainObject.empty.get key = JSVal.undefined := by
  simp [PlainObject.get, PlainObject.empty, h]

/-- On a one-record batch the single-record branch and the general branch agree, unless the
record is an attribute record whose name is a property of `Object.prototype`. -/
theorem postProcessSingle_eq_general (r : MutationRecord) (stack : JSVal) (s : State)
    (h : r.type = .attributes → attrKey r.attributeName ∉ objectPrototypeProps) :
    postProcessSingle r stack s = postProcessGeneral [r] stack s := by
  obtain ⟨ty, target, name, old, added, removed, next, new, st⟩ := r
  cases ty
  · have hk := PlainObject.get_empty_ordinary (attrKey name) (h rfl)
    simp [postProcessSingle, postProcessGeneral, reconstructLoop, reconstructRecord,
      Latest.empty, hk, JSVal.truthy, getAttribute_state]
  · simp [postProcessSingle, postProcessGeneral, reconstructLoop, reconstructRecord,
      Latest.empty, JSVal.looseNeUndefined]
  · simp [postProcessSingle, postProcessGeneral, reconstructLoop, reconstructRecord]

theorem PlainObject.set_own_other (o : PlainObject) (key k : String) (v : Option String)
    (h : key ≠ k) : (o.set key v).own k = o.own k := by
  unfold PlainObject.set
  split
  · cases v <;> rfl
  · simp [Ne.symm h]

theorem reconstructRecord_attr_other (stack : JSVal) (r : MutationRecord) (m : Latest)
    (s : State) (t : Node) (k : String)
    (h : ¬ (r.type = .attributes ∧ r.target = t ∧ attrKey r.attributeName = k)) :
    (((reconstructRecord stack r m s).2.1.latestAttributeValues t).getD PlainObject.empty).own k
      = ((m.latestAttributeValues t).getD PlainObject.empty).own k := by
  unfold reconstructRecord
  split
  · next htype =>
    simp only
    by_cases ht : t = r.target
    · have hk : attrKey r.attributeName ≠ k := fun e => h ⟨htype, ht.symm, e⟩
      subst ht
      simp [PlainObject.set_own_other _ _ _ _ hk]
    · simp [ht]
  · rfl
  · rfl

theorem reconstructLoop_attr_other (stack : JSVal) (rs : List MutationRecord) (m : Latest)
    (s : State) (t : Node) (k : String)
    (h : ∀ r ∈ rs, ¬ (r.type = .attributes ∧ r.target = t ∧ attrKey r.attributeName = k)) :
    (((reconstructLoop stack rs m s).2.1.latestAttributeValues t).getD PlainObject.empty).own k
      = ((m.latestAttributeValues t).getD PlainObject.empty).own k := by
  induction rs with
  | nil => rfl
  | cons r rs ih =>
    simp only [reconstructLoop]
    rw [reconstructRecord_attr_other stack r _ _ t k (h r (List.mem_cons_self _ _))]
    exact ih (fun r' hr' => h r' (List.mem_cons_of_mem _ hr'))

theorem reconstructLoop_page (stack : JSVal) (rs : List MutationRecord) (m : Latest)
    (s : State) : (reconstructLoop stack rs m s).2.2.page = s.page := by
  obtain ⟨calls, h⟩ := reconstructLoop_state stack rs m s
  rw [h]

/-- Inside the general loop, an attribute record that is the last one for its key, with a
name that is not a property of `Object.prototype`, receives the live value. -/
theorem reconstructLoop_attr_last (stack : JSVal) (rest : List MutationRecord)
    (r : MutationRecord) (s : State)
    (htype : r.type = .attributes)
    (hname : attrKey r.attributeName ∉ objectPrototypeProps)
    (hlast : ∀ r' ∈ rest, ¬ (r'.type = .attributes ∧ r'.target = r.target ∧
      attrKey r'.attributeName = attrKey r.attributeName)) :
    (reconstructRecord stack r (reconstructLoop stack rest Latest.empty s).2.1
        (reconstructLoop stack rest Latest.empty s).2.2).1 =
      { r with newValue := JSVal.ofOption (s.page.dom.attributes r.target
                 (attrKey r.attributeName)),
               stack := stack } := by
  have hown := reconstructLoop_attr_other stack rest Latest.empty s r.target
    (attrKey r.attributeName) hlast
  have hown' : (((reconstructLoop stack rest Latest.empty s).2.1.latestAttributeValues
      r.target).getD PlainObject.empty).own (attrKey r.attributeName) = none := by
    rw [hown]
    rfl
  have hget : (((reconstructLoop stack rest Latest.empty s).2.1.latestAttributeValues
      r.target).getD PlainObject.empty).get (attrKey r.attributeName) = JSVal.undefined := by
    simp [PlainObject.get, hown', hname]
  simp [reconstructRecord, htype, hget, JSVal.truthy, getAttribute_value, reconstructLoop_page]

/-- Inside the general loop, a text record that is the last one for its target receives the
live value. -/
theorem reconstructLoop_text_last (stack : JSVal) (rest : List MutationRecord)
    (r : MutationRecord) (s : State)
    (htype : r.type = .characterData)
    (hlast : ∀ r' ∈ rest, ¬ (r'.type = .characterData ∧ r'.target = r.target)) :
    (reconstructRecord stack r (reconstructLoop stack rest Latest.empty s).2.1
        (reconstructLoop stack rest Latest.empty s).2.2).1 =
      { r with newValue := JSVal.ofOption (s.page.dom.nodeValue r.target), stack := stack } := by
  have hl := reconstructLoop_text_other stack rest Latest.empty s r.target hlast
  have hl' : (reconstructLoop stack rest Latest.empty s).2.1.latestCharacterDataValues r.target
      = none := by
    rw [hl]
    rfl
  simp [reconstructRecord, htype, hl', JSVal.looseNeUndefined, Page.getNodeValue,
    reconstructLoop_page]

/-- With an empty `future`, `postProcessRecords` runs the general branch, or the
single-record branch where both agree. -/
theorem postProcessRecords_eq_general (rs : List MutationRecord) (stack : JSVal) (s : State)
    (hfuture : s.future = [])
    (hsingle : ∀ r, rs = [r] → r.type = .attributes →
      attrKey r.attributeName ∉ objectPrototypeProps) :
    postProcessRecords rs stack s = postProcessGeneral rs stack s := by
  unfold postProcessRecords
  rw [if_neg (by simp [hfuture])]
  split
  · next r => exact postProcessSingle_eq_general r stack s (hsingle r rfl)
  · rfl

theorem logUnclaimedMutations_general (rs : List MutationRecord) (s : State)
    (hfuture : s.future = []) (hne : rs ≠ [])
    (hsingle : ∀ r, rs = [r] → r.type = .attributes →
      attrKey r.attributeName ∉ objectPrototypeProps) :
    (logUnclaimedMutations (some rs) s).1.past =
      s.past ++ (reconstructLoop .undefined rs Latest.empty s).1 := by
  have h0 : rs.length ≠ 0 := by simpa using hne
  obtain ⟨hp, he, hr⟩ := postProcessGeneral_past rs .undefined s
  simp only [logUnclaimedMutations, h0, ne_eq, not_false_eq_true, if_true,
    postProcessRecords_eq_general rs .undefined s hfuture hsingle]
  split
  · next heq => rw [heq] at he; simp at he
  · next heq =>
    rw [heq] at hp
    split <;> exact hp

theorem logClaimedMutations_general (claim stack : String) (s : State)
    (hfuture : s.future = []) (hne : s.page.queue ≠ [])
    (hsingle : ∀ r, s.page.queue = [r] → r.type = .attributes →
      attrKey r.attributeName ∉ objectPrototypeProps) :
    (logClaimedMutations claim stack s).1.past =
      s.past ++ (reconstructLoop (.str stack) s.page.queue Latest.empty (takeRecords s).2).1 := by
  have h0 : s.page.queue.length ≠ 0 := by simpa using hne
  have hf : (takeRecords s).2.future = [] := hfuture
  obtain ⟨hp, he, hr⟩ := postProcessGeneral_past s.page.queue (.str stack) (takeRecords s).2
  rw [logClaimedMutations_eq, if_pos h0,
    postProcessRecords_eq_general s.page.queue (.str stack) _ hf hsingle]
  split
  · next heq => rw [heq] at he; simp at he
  · next heq =>
    rw [heq] at hp
    split <;> exact hp

/-- The entries a committing flush appends to `past` are those of the general loop, run on
the tree of the flush. -/
theorem FlushStep.run_general (f : FlushStep) (s : State) (hfuture : s.future = [])
    (hne : f.batch ≠ [])
    (hsingle : ∀ r, f.batch = [r] → r.type = .attributes →
      attrKey r.attributeName ∉ objectPrototypeProps) :
    ∃ t : State, t.page.dom = f.page.dom ∧
      (f.run s).1.past = s.past ++ (reconstructLoop f.stack f.batch Latest.empty t).1 := by
  obtain ⟨page, kind⟩ := f
  cases kind with
  | callback records =>
    exact ⟨{ s with page := page }, rfl,
      logUnclaimedMutations_general records { s with page := page } hfuture hne hsingle⟩
  | unclaimed =>
    refine ⟨(takeRecords { s with page := page }).2, rfl, ?_⟩
    simp only [FlushStep.run, logUnclaimedMutations_drain]
    exact logUnclaimedMutations_general page.queue _ hfuture hne hsingle
  | claimed claim stack =>
    exact ⟨(takeRecords { s with page := page }).2, rfl,
      logClaimedMutations_general claim stack { s with page := page } hfuture hne hsingle⟩

/-- With an empty `future`, an attribute or text record that is the last one of the batch
for its key receives the live value as `newValue`, provided the name of an attribute record
is not a property of `Object.prototype`. -/
theorem FlushStep.run_last_gets_live (f : FlushStep) (s : State)
    (pre rest : List MutationRecord) (r : MutationRecord)
    (hfuture : s.future = []) (hbatch : f.batch = pre ++ r :: rest) :
    (r.type = .attributes → attrKey r.attributeName ∉ objectPrototypeProps →
      (∀ q ∈ rest, ¬ (q.type = .attributes ∧ q.target = r.target ∧
        attrKey q.attributeName = attrKey r.attributeName)) →
      (f.run s).1.past[s.past.length + pre.length]? =
        some { r with newValue := JSVal.ofOption (f.page.dom.attributes r.target
                        (attrKey r.attributeName)),
                      stack := f.stack }) ∧
    (r.type = .characterData →
      (∀ q ∈ rest, ¬ (q.type = .characterData ∧ q.target = r.target)) →
      (f.run s).1.past[s.past.length + pre.length]? =
        some { r with newValue := JSVal.ofOption (f.page.dom.nodeValue r.target),
                      stack := f.stack }) := by
  have hne : f.batch ≠ [] := by
    rw [hbatch]
    simp
  have hhead : ∀ q, f.batch = [q] → q = r := by
    intro q hq
    rw [hbatch] at hq
    cases pre with
    | nil =>
      have h := hq.symm
      simp only [List.nil_append, List.cons.injEq] at h
      exact h.1
    | cons x xs =>
      have := congrArg List.length hq
      simp at this
  constructor
  · intro htype hname hlast
    obtain ⟨t, ht, hpast⟩ := f.run_general s hfuture hne
      (fun q hq _ => by rw [hhead q hq]; exact hname)
    rw [hpast, List.getElem?_append_right (by omega), Nat.add_sub_cancel_left, hbatch,
      reconstructLoop_getElem, reconstructLoop_attr_last f.stack rest r t htype hname hlast, ht]
  · intro htype hlast
    obtain ⟨t, ht, hpast⟩ := f.run_general s hfuture hne
      (fun q hq hq' => by rw [hhead q hq, htype] at hq'; cases hq')
    rw [hpast, List.getElem?_append_right (by omega), Nat.add_sub_cancel_left, hbatch,
      reconstructLoop_getElem, reconstructLoop_text_last f.stack rest r t htype hlast, ht]

theorem PlainObject.set_own_same (o : PlainObject) (key : String) (v : Option String)
    (h : key ≠ "__proto__") : (o.set key v).own key = some v := by
  simp [PlainObject.set, h]

theorem reconstructRecord_attr_latest (stack : JSVal) (r : MutationRecord) (m : Latest)
    (s : State) (htype : r.type = .attributes) (hname : attrKey r.attributeName ≠ "__proto__") :
    (((reconstructRecord stack r m s).2.1.latestAttributeValues r.target).getD
      PlainObject.empty).own (attrKey r.attributeName) = some r.oldValue := by
  simp [reconstructRecord, htype, PlainObject.set_own_same _ _ _ hname]

/-- With an empty `future`, an attribute event followed later in the batch by another event
on the same target and attribute receives the old value of the nearest such event, when
that value is a non-empty string and the attribute is not named `__proto__`. -/
theorem FlushStep.run_attr_threading (f : FlushStep) (s : State)
    (pre mid post : List MutationRecord) (r1 r2 : MutationRecord) (v : String)
    (hfuture : s.future = [])
    (hbatch : f.batch = pre ++ r1 :: (mid ++ r2 :: post))
    (h1 : r1.type = .attributes) (h2 : r2.type = .attributes)
    (htarget : r2.target = r1.target)
    (hkey : attrKey r2.attributeName = attrKey r1.attributeName)
    (hname : attrKey r1.attributeName ≠ "__proto__")
    (hmid : ∀ r ∈ mid, ¬ (r.type = .attributes ∧ r.target = r1.target ∧
      attrKey r.attributeName = attrKey r1.attributeName))
    (hv : r2.oldValue = some v) (hnonempty : v ≠ "") :
    (f.run s).1.past[s.past.length + pre.length]? =
      some { r1 with newValue := .str v, stack := f.stack } := by
  have hne : f.batch ≠ [] := by
    rw [hbatch]
    simp
  have hsingle : ∀ r, f.batch = [r] → r.type = .attributes →
      attrKey r.attributeName ∉ objectPrototypeProps := by
    intro r hr
    have hlen := congrArg List.length hr
    rw [hbatch] at hlen
    simp only [List.length_append, List.length_cons, List.length_nil] at hlen
    omega
  obtain ⟨t, -, hpast⟩ := f.run_general s hfuture hne hsingle
  have hown : (((reconstructLoop f.stack (mid ++ r2 :: post) Latest.empty t).2.1.latestAttributeValues
      r1.target).getD PlainObject.empty).own (attrKey r1.attributeName) = some (some v) := by
    rw [reconstructLoop_append]
    simp only
    rw [reconstructLoop_attr_other f.stack mid _ _ r1.target _ hmid]
    simp only [reconstructLoop]
    rw [← htarget, ← hkey, reconstructRecord_attr_latest f.stack r2 _ _ h2 (hkey ▸ hname), hv]
  have hget : (((reconstructLoop f.stack (mid ++ r2 :: post) Latest.empty t).2.1.latestAttributeValues
      r1.target).getD PlainObject.empty).get (attrKey r1.attributeName) = .str v := by
    simp [PlainObject.get, hown, JSVal.ofOption]
  rw [hpast, List.getElem?_append_right (by omega), Nat.add_sub_cancel_left, hbatch,
    reconstructLoop_getElem]
  simp [reconstructRecord, h1, hget, JSVal.truthy, hnonempty]

/-- With an empty `future`, a one-record batch goes to the single-record branch
(`records.length == 1`). -/
theorem postProcessRecords_single (r : MutationRecord) (stack : JSVal) (s : State)
    (hfuture : s.future = []) :
    postProcessRecords [r] stack s = postProcessSingle r stack s := by
  unfold postProcessRecords
  rw [if_neg (by simp [hfuture])]

/-- The record the single-record branch returns: the live value as `newValue` for an
attribute or text record, whatever the attribute name, and the stack. -/
theorem postProcessSingle_records (r : MutationRecord) (stack : JSVal) (s : State) :
    (postProcessSingle r stack s).1 =
      [{ r with
         newValue := match r.type with
           | .attributes =>
             JSVal.ofOption (s.page.dom.attributes r.target (attrKey r.attributeName))
           | .characterData => JSVal.ofOption (s.page.dom.nodeValue r.target)
           | .childList => r.newValue,
         stack := stack }] := by
  obtain ⟨ty, target, name, old, added, removed, next, new, st⟩ := r
  cases ty <;> simp [postProcessSingle, getAttribute_value, Page.getNodeValue]

/-! ## The claims -/

/-- Claim C1 (code defect).  The general branch of `postProcessRecords` threads attribute
values with `attrValues[attrName] || getAttribute(...)`.  On the batch of the spec (old values
`"a"`, `"b"`, `"c"`, live value `"d"`) the new values are `"b"`, `"c"`, `"d"`.  On a batch
whose later event has the empty string as old value, the earlier event does not receive
that old value: `""` is falsy, so it receives the live value `"d"` instead. -/
theorem attribute_threading_drops_empty_string :
    (logUnclaimedMutations (some classBatch) (State.start exampleDom)).1.past.map
        (fun r => r.newValue) = [.str "b", .str "c", .str "d"] ∧
    (logUnclaimedMutations (some emptyStringBatch) (State.start exampleDom)).1.past.map
        (fun r => (r.oldValue, r.newValue)) = [(some "a", .str "d"), (some "", .str "d")] := by
  decide

/-- Claim C2.  In a state with a non-empty `past` and an empty observer queue, `undo()`
followed by `redo()` leaves `past`, `future` and `lostFuture` as they were.  (The second
call is made on the state the first one leaves, also when the first one raised.) -/
theorem undo_redo_stacks (s : State) (hpast : s.past ≠ []) (hq : s.page.queue = []) :
    (redo (undo s).1).1.past = s.past ∧
    (redo (undo s).1).1.future = s.future ∧
    (redo (undo s).1).1.lostFuture = s.lostFuture := by
  rw [redo_of_idle _ (undo_queue s hq), undo_of_idle s hq]
  obtain ⟨m, hm⟩ : ∃ m, s.past.getLast? = some m := by
    cases h : s.past.getLast? with
    | none => exact absurd (List.getLast?_eq_none_iff.mp h) hpast
    | some m => exact ⟨m, rfl⟩
  simp only [hm, List.getLast?_concat, List.dropLast_concat]
  refine ⟨?_, trivial, trivial⟩
  exact List.dropLast_append_getLast? m hm

/-- Witness of C2 on the example page after one committed attribute change. -/
theorem undo_redo_stacks_witness :
    (addedAttributeState.past ≠ [] ∧ addedAttributeState.page.queue = []) ∧
    (redo (undo addedAttributeState).1).1.past = addedAttributeState.past ∧
    (redo (undo addedAttributeState).1).1.future = addedAttributeState.future ∧
    (redo (undo addedAttributeState).1).1.lostFuture = addedAttributeState.lostFuture :=
  ⟨⟨by decide, by decide⟩, undo_redo_stacks addedAttributeState (by decide) (by decide)⟩

/-- Claim C3.  When `future` is non-empty, a flush that delivers a non-empty batch (by the
observer callback, by `logUnclaimedMutations()` or by `logClaimedMutations`) leaves `past`
and `future` unchanged and appends the batch to `lostFuture`, in delivery order and with
the records untouched: none has been given a `newValue`.  This holds whatever the value of
the counter, and also when the revert raises. -/
theorem branch_cancellation_bookkeeping (f : FlushStep) (s : State)
    (hfuture : s.future ≠ [])
    (hbatch : f.batch ≠ []) (hraw : ∀ r ∈ f.batch, r.newValue = JSVal.undefined) :
    (f.run s).1.past = s.past ∧ (f.run s).1.future = s.future ∧
    (f.run s).1.lostFuture = s.lostFuture ++ f.batch ∧
    (f.run s).1.lostFuture.length = s.lostFuture.length + f.batch.length ∧
    ∀ r ∈ (f.run s).1.lostFuture.drop s.lostFuture.length, r.newValue = JSVal.undefined := by
  obtain ⟨hpast, hfut, hlost⟩ := f.run_cancel s hfuture hbatch
  refine ⟨hpast, hfut, hlost, by simp [hlost], ?_⟩
  intro r hr
  rw [hlost, List.drop_left] at hr
  exact hraw r hr

/-- Witness of C3: a batch of two records arrives while one change is undone. -/
theorem branch_cancellation_bookkeeping_witness :
    (reviewingState.future ≠ [] ∧ lateFlush.batch.length = 2) ∧
    (lateFlush.run reviewingState).1.lostFuture.length = reviewingState.lostFuture.length + 2 :=
  ⟨⟨by decide, by decide⟩,
   (branch_cancellation_bookkeeping lateFlush reviewingState (by decide) (by decide)
     (by decide)).2.2.2.1⟩

/-- Claim C4, as stated, fails: `logUnclaimedMutations` does not test the counter.  With the
counter at `1` and an empty `future`, a one-record batch is committed to `past` with its
`newValue` filled in, and the logging hook is called. -/
theorem capture_does_not_test_the_guard :
    guardedState.isDoingOffRecordsMutations = 1 ∧ guardedState.past = [] ∧
    (logUnclaimedMutations (some [MutationRecord.attr 0 "class" (some "a")]) guardedState).1.past
      = [{ MutationRecord.attr 0 "class" (some "a") with newValue := .str "d" }] ∧
    (logUnclaimedMutations (some [MutationRecord.attr 0 "class" (some "a")])
        guardedState).1.loggedRecords.map (fun e => e.claim) = ["unclaimed"] := by
  decide

/-- Claim C4, amended.  The counter is tested by the wrappers that `enableCallstackTracking`
installs: while it is greater than zero, a patched operation runs the native operation and
nothing else.  Neither `logUnclaimedMutations` nor `logClaimedMutations` is called, so `past`,
`future`, `lostFuture`, the counter and the calls to both hooks are unchanged, the page
changes as the native operation changes it, and the records it queued stay in the queue
without a `newValue`. -/
theorem patched_under_guard (propName stack : String)
    (native : Page → Page × Option DOMException) (s : State)
    (hguard : 0 < s.isDoingOffRecordsMutations) :
    patched propName stack native s = ({ s with page := (native s.page).1 }, (native s.page).2) := by
  have hg : s.isDoingOffRecordsMutations ≠ 0 := by omega
  simp only [patched, hg, ne_eq, not_false_eq_true, if_true]
  rcases h : native s.page with ⟨p, _ | e⟩ <;> simp

/-- Witness of the amended C4: a patched `setAttribute` while the counter is `1`. -/
theorem patched_under_guard_witness :
    0 < guardedState.isDoingOffRecordsMutations ∧
    patched "setAttribute" "at f (app.js:1:1)" nativeSetClass guardedState =
      ({ guardedState with page := (nativeSetClass guardedState.page).1 },
       (nativeSetClass guardedState.page).2) :=
  ⟨by decide, patched_under_guard "setAttribute" "at f (app.js:1:1)" nativeSetClass
    guardedState (by decide)⟩

/-- Claim C5.  Let the child list of the target be `xs ++ added ++ ys`, and let the record
have `addedNodes = added`, no removed nodes and `nextSibling` the first node of `ys` (`null`
when `ys` is empty).  Then `undoMutationRecord` returns normally and leaves the child list
`xs ++ ys`, and `redoMutationRecord` applied next returns normally and leaves
`xs ++ added ++ ys`.  The last three hypotheses hold in every DOM tree: a child list has no
repetition, the children of a node have that node as parent, and no node is its own
ancestor. -/
theorem childList_insertion_round_trip (p : Page) (change : MutationRecord)
    (xs added ys : List Node)
    (htype : change.type = .childList) (hadded : change.addedNodes = added)
    (hremoved : change.removedNodes = []) (hnext : change.nextSibling = ys.head?)
    (hchildren : p.dom.childNodes change.target = xs ++ added ++ ys)
    (hnodup : (xs ++ added ++ ys).Nodup)
    (hparent : ∀ c ∈ added ++ ys, p.dom.parentNode c = some change.target)
    (hacyclic : ∀ a ∈ added, a ∉ p.dom.inclusiveAncestors p.dom.size change.target) :
    (undoMutationRecord change p).2 = none ∧
    (undoMutationRecord change p).1.dom.childNodes change.target = xs ++ ys ∧
    (redoMutationRecord change (undoMutationRecord change p).1).2 = none ∧
    (redoMutationRecord change (undoMutationRecord change p).1).1.dom.childNodes change.target
      = xs ++ added ++ ys := by
  have hnd_added : added.reverse.Nodup :=
    List.nodup_reverse.mpr (List.nodup_append.mp (List.nodup_append.mp hnodup).1).2.1
  obtain ⟨h1, h2, h3, h4⟩ := removeEach_children change.target added.reverse p
    (fun a ha => hparent a (List.mem_append_left _ (List.mem_reverse.mp ha))) hnd_added
  have hundo : undoMutationRecord change p = (removeEach added.reverse p, none) := by
    simp [undoMutationRecord, htype, hadded, hremoved, insertEachBefore]
  rw [hchildren, diff_middle xs added ys hnodup] at h1
  have hsame : (removeEach added.reverse p).dom.inclusiveAncestors p.dom.size change.target =
      p.dom.inclusiveAncestors p.dom.size change.target := by
    apply Dom.inclusiveAncestors_congr
    intro m hm
    apply h3
    intro hmem
    exact hacyclic m (List.mem_reverse.mp hmem) hm
  have hfwd := insertEachBefore_children change.target xs ys added.reverse []
    (removeEach added.reverse p) (by simpa using h1) (by simpa using hnodup) h2
    (by
      intro c hc
      have hcy : c ∈ ys := List.mem_of_mem_head? (by simpa using hc)
      have hca : c ∉ added.reverse := by
        intro hmem
        exact (List.nodup_append.mp hnodup).2.2
          (List.mem_append_right _ (List.mem_reverse.mp hmem)) hcy
      rw [h3 c hca]
      exact hparent c (List.mem_append_right _ hcy))
    (by
      intro a ha
      rw [h4, hsame]
      exact hacyclic a (List.mem_reverse.mp ha))
  simp only [List.nil_append, List.reverse_reverse] at hfwd
  rw [hundo]
  refine ⟨rfl, h1, ?_, ?_⟩
  · simp only [redoMutationRecord, htype, hadded, hremoved, hnext]
    rcases hres : insertEachBefore change.target added.reverse ys.head?
        (removeEach added.reverse p) with ⟨q, _ | e⟩
    · rfl
    · rw [hres] at hfwd
      exact absurd hfwd.1 (by simp)
  · simp only [redoMutationRecord, htype, hadded, hremoved, hnext]
    rcases hres : insertEachBefore change.target added.reverse ys.head?
        (removeEach added.reverse p) with ⟨q, _ | e⟩
    · rw [hres] at hfwd
      simpa [removeEach] using hfwd.2
    · rw [hres] at hfwd
      exact absurd hfwd.1 (by simp)

/-- Witness of C5: element `2`, inserted before element `3` under the root of the example
page, is removed by the undo and put back between `1` and `3` by the redo. -/
theorem childList_insertion_round_trip_witness :
    (undoMutationRecord insertionRecord ⟨exampleDom, []⟩).1.dom.childNodes 0 = [1, 3] ∧
    (redoMutationRecord insertionRecord
      (undoMutationRecord insertionRecord ⟨exampleDom, []⟩).1).1.dom.childNodes 0 = [1, 2, 3] :=
  have h := childList_insertion_round_trip ⟨exampleDom, []⟩ insertionRecord [1] [2] [3]
    rfl rfl rfl rfl rfl (by decide) (by decide) (by decide)
  ⟨h.2.1, h.2.2.2⟩

/-- Claim C6 (code defect).  Two reachable states in which the last entry of `past` is an
attribute event and `undo()` followed by `redo()` does not restore the attribute.
In `threadedState` the entry was reconstructed next to an event whose old value is the empty
string, so its `newValue` is `"b"` while the value it produced was `""`: the attribute reads
`""` before and `"b"` after.  In `removedAttributeState` the entry records the removal of the
attribute, so its `newValue` is `null`: the attribute is absent before and reads `"null"`
after. -/
theorem undo_redo_does_not_restore_attribute :
    (Reachable threadedState ∧ threadedState.page.queue = [] ∧
      threadedState.past.map (fun r => (r.type, r.target, r.attributeName)) =
        [(.attributes, 0, some "class")] ∧
      threadedState.page.dom.attributes 0 "class" = some "" ∧
      (redo (undo threadedState).1).1.page.dom.attributes 0 "class" = some "b") ∧
    (Reachable removedAttributeState ∧ removedAttributeState.page.queue = [] ∧
      removedAttributeState.past.map (fun r => (r.type, r.target, r.attributeName)) =
        [(.attributes, 0, some "class")] ∧
      removedAttributeState.page.dom.attributes 0 "class" = none ∧
      (redo (undo removedAttributeState).1).1.page.dom.attributes 0 "class" = some "null") := by
  refine ⟨⟨?_, by decide, by decide, by decide, by decide⟩,
    ⟨?_, by decide, by decide, by decide, by decide⟩⟩
  · exact Reachable.undo _ (Reachable.flush _ (Reachable.write _ _ (Reachable.write _ _
      (Reachable.start exampleDom))))
  · exact Reachable.flush _ (Reachable.write _ _ (Reachable.start exampleDom))

/-- Claim C7.  While `future` is empty, a sequence of flushes appends to `past` exactly the
events of its batches, in delivery order within a flush and in flush order across flushes
(`entries` are the delivered records with `newValue` and `stack` filled in), and leaves
`future` empty and `lostFuture` unchanged.  From an empty history `past` is `entries`, of
length the total number of events; a single flush is the case of a one-element
sequence. -/
theorem commit_appends_in_order (fs : List FlushStep) (s : State) (hfuture : s.future = []) :
    ∃ entries, (runFlushes fs s).past = s.past ++ entries ∧
      entries.map MutationRecord.event = (fs.flatMap FlushStep.batch).map MutationRecord.event ∧
      entries.length = (fs.map fun f => f.batch.length).sum ∧
      (runFlushes fs s).future = [] ∧
      (runFlushes fs s).lostFuture = s.lostFuture := by
  induction fs generalizing s with
  | nil => exact ⟨[], by simp [runFlushes, hfuture]⟩
  | cons f fs ih =>
    obtain ⟨first, -, hpast, hevents, hfut, hlost⟩ := f.run_commit s hfuture
    obtain ⟨rest, hpast', hevents', hlen', hfut', hlost'⟩ := ih (f.run s).1 hfut
    refine ⟨first ++ rest, ?_, ?_, ?_, hfut', ?_⟩
    · simp [runFlushes, hpast', hpast]
    · simp [hevents, hevents']
    · have h1 : first.length = f.batch.length := by
        simpa using congrArg List.length hevents
      simp [h1, hlen']
    · simp [runFlushes, hlost', hlost]

/-- Witness of C7: two flushes on the example page, starting from an empty history, leave
the four delivered events on `past`, in order. -/
theorem commit_appends_in_order_witness :
    (runFlushes exampleFlushes (State.start exampleDom)).past.map MutationRecord.event =
      classBatch ++ [MutationRecord.text 4 (some "hi")] ∧
    (runFlushes exampleFlushes (State.start exampleDom)).past.length = 4 ∧
    (runFlushes exampleFlushes (State.start exampleDom)).future = [] ∧
    (runFlushes exampleFlushes (State.start exampleDom)).lostFuture = [] := by
  obtain ⟨entries, hpast, hevents, hlen, hfuture, hlost⟩ :=
    commit_appends_in_order exampleFlushes (State.start exampleDom) rfl
  have hstart : (State.start exampleDom).past = [] := rfl
  rw [hstart, List.nil_append] at hpast
  rw [hpast]
  exact ⟨hevents, hlen, hfuture, hlost⟩

/-- Claim C8 (code defect).  In `addedAttributeState` the last entry of `past` records that a
script added the attribute `title` to element `2`: its `oldValue` is `null`.  `undo()` moves
the entry to `future` and returns normally, but `setAttribute(name, null)` stores the
string `"null"`: the attribute is not absent afterwards, so the target does not hold the
entry's `oldValue`. -/
theorem undo_of_added_attribute_leaves_null_string :
    addedAttributeState.page.queue = [] ∧
    addedAttributeState.past.map (fun r => (r.type, r.target, r.attributeName, r.oldValue)) =
      [(.attributes, 2, some "title", none)] ∧
    (undo addedAttributeState).2 = none ∧
    (undo addedAttributeState).1.past = [] ∧
    (undo addedAttributeState).1.future = addedAttributeState.past ∧
    (undo addedAttributeState).1.page.dom.attributes 2 "title" = some "null" := by
  decide

/-- Claim C9 (code defect).  In `undoneRemovalState` the last entry of `future` records that
a script removed the attribute `class` from the root: its `newValue` is `null`.  `redo()`
moves the entry to `past` and returns normally, but `setAttribute(name, null)` stores the
string `"null"`: the attribute is not absent afterwards, so the target does not hold the
entry's `newValue`. -/
theorem redo_of_removed_attribute_leaves_null_string :
    undoneRemovalState.page.queue = [] ∧
    undoneRemovalState.future.map (fun r => (r.type, r.target, r.attributeName, r.newValue)) =
      [(.attributes, 0, some "class", .null)] ∧
    (redo undoneRemovalState).2 = none ∧
    (redo undoneRemovalState).1.future = [] ∧
    (redo undoneRemovalState).1.past = undoneRemovalState.future ∧
    (redo undoneRemovalState).1.page.dom.attributes 0 "class" = some "null" := by
  decide

/-- Claim C10.  With an empty observer queue, `undo()` on an empty `past` and `redo()` on an
empty `future` return normally and leave the whole state unchanged: the three arrays, the
tree, the counter and the calls made to the hooks. -/
theorem undo_redo_at_boundary (s : State) (hq : s.page.queue = []) :
    (s.past = [] → undo s = (s, none)) ∧ (s.future = [] → redo s = (s, none)) := by
  constructor
  · intro h
    rw [undo_of_idle s hq, h]
    rfl
  · intro h
    rw [redo_of_idle s hq, h]
    rfl

/-- Witness of C10 on the example page with an empty history. -/
theorem undo_redo_at_boundary_witness :
    undo (State.start exampleDom) = (State.start exampleDom, none) ∧
    redo (State.start exampleDom) = (State.start exampleDom, none) :=
  ⟨(undo_redo_at_boundary (State.start exampleDom) rfl).1 rfl,
   (undo_redo_at_boundary (State.start exampleDom) rfl).2 rfl⟩

/-- Claim C11.  In every state, and whether or not the applier raises, `undo()`, `redo()`,
every flush (the revert of a branch cancellation included), `postProcessRecords` and the
guarded attribute read leave the counter `isDoingOffRecordsMutations` at its value on
entry.  Hence in every state reached from an empty history the counter is `0`, and it is
`0` again after each of these operations.  (The counter is a natural number: it is never
negative.) -/
theorem guard_released (s : State) :
    (undo s).1.isDoingOffRecordsMutations = s.isDoingOffRecordsMutations ∧
    (redo s).1.isDoingOffRecordsMutations = s.isDoingOffRecordsMutations ∧
    (∀ f : FlushStep, (f.run s).1.isDoingOffRecordsMutations = s.isDoingOffRecordsMutations) ∧
    (∀ rs stack, (postProcessRecords rs stack s).2.1.isDoingOffRecordsMutations =
      s.isDoingOffRecordsMutations) ∧
    (∀ target name, (getAttribute target name s).2.isDoingOffRecordsMutations =
      s.isDoingOffRecordsMutations) ∧
    (Reachable s → s.isDoingOffRecordsMutations = 0 ∧
      (undo s).1.isDoingOffRecordsMutations = 0 ∧ (redo s).1.isDoingOffRecordsMutations = 0 ∧
      ∀ f : FlushStep, (f.run s).1.isDoingOffRecordsMutations = 0) := by
  refine ⟨undo_counter s, redo_counter s, fun f => f.run_counter s,
    fun rs stack => postProcessRecords_counter rs stack s,
    fun target name => by rw [getAttribute_state], ?_⟩
  intro h
  have h0 := Reachable.counter_zero s h
  exact ⟨h0, (undo_counter s).trans h0, (redo_counter s).trans h0,
    fun f => (f.run_counter s).trans h0⟩

/-- Witness of C11: an `undo()` that raises `NotFoundError` leaves the counter at `0`, and so
does an `undo()` in a reachable state. -/
theorem guard_released_witness :
    ((undo staleState).2 = some .NotFoundError ∧
      (undo staleState).1.isDoingOffRecordsMutations = staleState.isDoingOffRecordsMutations) ∧
    (Reachable addedAttributeState ∧ (undo addedAttributeState).1.isDoingOffRecordsMutations = 0) :=
  have hreach : Reachable addedAttributeState :=
    Reachable.flush _ (Reachable.write _ _ (Reachable.start exampleDom))
  ⟨⟨by decide, (guard_released staleState).1⟩,
   ⟨hreach, ((guard_released addedAttributeState).2.2.2.2.2 hreach).2.1⟩⟩

/-- Claim C12 (code defect).  While `reviewingState` has a future, two changes of `class`
made by a script are reverted by the flush: `class` is `"d"` again.  But when the script adds
an attribute (`title` on element `3`, absent before, so the record has `oldValue` `null`),
the flush puts the record on `lostFuture` and reverts it with `setAttribute("title", null)`:
the attribute is not absent afterwards, it holds the string `"null"`. -/
theorem branch_cancellation_leaves_null_string :
    reviewingState.future ≠ [] ∧
    (reviewingState.page.dom.attributes 0 "class" = some "d" ∧
      lateClassChanges.page.queue.map (fun r => (r.attributeName, r.oldValue)) =
        [(some "class", some "d"), (some "class", some "e")] ∧
      lateClassChanges.flush.page.dom.attributes 0 "class" = some "d") ∧
    (reviewingState.page.dom.attributes 3 "title" = none ∧
      lateAddition.page.queue.map (fun r => (r.attributeName, r.oldValue)) =
        [(some "title", none)] ∧
      lateAddition.flush.lostFuture = reviewingState.lostFuture ++ lateAddition.page.queue ∧
      lateAddition.flush.page.dom.attributes 3 "title" = some "null") := by
  decide

/-- Claim C13 (code defect).  A single attribute event receives the live value (`"d"` on the
example page).  In a batch of two or more, the general branch looks the attribute name up in
a plain object `{}`: for an event on the attribute `constructor`, last of the batch for its
key, `attrValues["constructor"]` is the inherited `Object.prototype.constructor`, which is
truthy, so the event receives that function as `newValue` and not the live value `"y"`. -/
theorem last_event_on_inherited_name_misses_live_value :
    (logUnclaimedMutations (some [MutationRecord.attr 0 "class" (some "a")])
        (State.start exampleDom)).1.past.map (fun r => r.newValue) = [.str "d"] ∧
    constructorState.future = [] ∧
    constructorState.page.queue.map (fun r => (r.target, r.attributeName, r.oldValue)) =
      [(0, some "constructor", none), (0, some "class", some "d")] ∧
    constructorState.page.dom.attributes 0 "constructor" = some "y" ∧
    constructorState.flush.past.map (fun r => r.newValue) =
      [.protoProp "constructor", .str "e"] := by
  decide

/-- Claim C14, as stated, fails: the two branches do not agree on every one-record batch.
On the batch that records the addition of an attribute named `constructor` (live value
`"y"`), the single-record branch gives the event the `newValue` `"y"`, while the general
loop, were it run on the same batch, gives it the inherited `Object.prototype.constructor`;
the resulting `past` differs. -/
theorem fast_path_differs_on_inherited_name :
    constructorAddedState.future = [] ∧
    constructorAddedState.page.dom.attributes 0 "constructor" = some "y" ∧
    (postProcessSingle constructorRecord .undefined constructorAddedState).1 =
      [{ constructorRecord with newValue := .str "y" }] ∧
    (postProcessGeneral [constructorRecord] .undefined constructorAddedState).1 =
      [{ constructorRecord with newValue := .protoProp "constructor" }] ∧
    (postProcessSingle constructorRecord .undefined constructorAddedState).2.1.past ≠
      (postProcessGeneral [constructorRecord] .undefined constructorAddedState).2.1.past := by
  decide

/-- Claim C14, amended.  With `future` empty, `postProcessRecords` sends every one-record
batch to the single-record branch (the test `records.length == 1` keeps the general loop
away from it), and the event receives the live value as `newValue`, whatever its attribute
name.  That branch produces exactly what the general loop would produce on the same
one-element batch (the same record, hence the same `newValue` and stack, and the same
state, hence the same `past`) whenever the event is not an attribute event named after a
property of `Object.prototype`. -/
theorem fast_path_equals_general_off_inherited_names (r : MutationRecord) (stack : JSVal)
    (s : State) (hfuture : s.future = []) :
    postProcessRecords [r] stack s = postProcessSingle r stack s ∧
    (postProcessRecords [r] stack s).1 =
      [{ r with
         newValue := match r.type with
           | .attributes =>
             JSVal.ofOption (s.page.dom.attributes r.target (attrKey r.attributeName))
           | .characterData => JSVal.ofOption (s.page.dom.nodeValue r.target)
           | .childList => r.newValue,
         stack := stack }] ∧
    ((r.type = .attributes → attrKey r.attributeName ∉ objectPrototypeProps) →
      postProcessSingle r stack s = postProcessGeneral [r] stack s) := by
  have h := postProcessRecords_single r stack s hfuture
  refine ⟨h, ?_, fun hname => postProcessSingle_eq_general r stack s hname⟩
  rw [h]
  exact postProcessSingle_records r stack s

/-- Witness of the amended C14: a one-record batch on the attribute `class` of the example
page. -/
theorem fast_path_equals_general_off_inherited_names_witness :
    postProcessRecords [MutationRecord.attr 0 "class" (some "a")] .undefined
        (State.start exampleDom) =
      postProcessSingle (MutationRecord.attr 0 "class" (some "a")) .undefined
        (State.start exampleDom) ∧
    (postProcessRecords [MutationRecord.attr 0 "class" (some "a")] .undefined
        (State.start exampleDom)).1 =
      [{ MutationRecord.attr 0 "class" (some "a") with newValue := .str "d" }] ∧
    postProcessSingle (MutationRecord.attr 0 "class" (some "a")) .undefined
        (State.start exampleDom) =
      postProcessGeneral [MutationRecord.attr 0 "class" (some "a")] .undefined
        (State.start exampleDom) :=
  have h := fast_path_equals_general_off_inherited_names
    (MutationRecord.attr 0 "class" (some "a")) .undefined (State.start exampleDom) rfl
  ⟨h.1, h.2.1, h.2.2 (fun _ => by decide)⟩

/-- Claim C15.  Let the child list of the target be `xs ++ ys`, and let the record have
`removedNodes = removed` (distinct nodes, none of which has a parent), no added nodes and
`nextSibling` the first node of `ys` (`null` when `ys` is empty).  Then `undoMutationRecord`
returns normally and leaves the child list `xs ++ removed ++ ys`.  The last two hypotheses
hold in every DOM tree right after the removal: the children of a node have that node as
parent, and its former children are not among its ancestors. -/
theorem backward_reinsertion_restores_order (p : Page) (change : MutationRecord)
    (xs removed ys : List Node)
    (htype : change.type = .childList) (hadded : change.addedNodes = [])
    (hremoved : change.removedNodes = removed) (hnext : change.nextSibling = ys.head?)
    (hchildren : p.dom.childNodes change.target = xs ++ ys)
    (hnodup : (xs ++ removed ++ ys).Nodup)
    (hdetached : ∀ a ∈ removed, p.dom.parentNode a = none)
    (hparent : ∀ c ∈ ys, p.dom.parentNode c = some change.target)
    (hacyclic : ∀ a ∈ removed, a ∉ p.dom.inclusiveAncestors p.dom.size change.target) :
    (undoMutationRecord change p).2 = none ∧
    (undoMutationRecord change p).1.dom.childNodes change.target = xs ++ removed ++ ys := by
  have h := insertEachBefore_children change.target xs ys removed.reverse [] p
    (by simpa using hchildren) (by simpa using hnodup)
    (fun a ha => hdetached a (List.mem_reverse.mp ha))
    (fun c hc => hparent c (List.mem_of_mem_head? (by simpa using hc)))
    (fun a ha => hacyclic a (List.mem_reverse.mp ha))
  simp only [List.nil_append, List.reverse_reverse] at h
  simpa [undoMutationRecord, htype, hadded, hremoved, hnext, removeEach] using h

/-- Witness of C15: element `2`, removed from between `1` and `3` under the root of the
example page, is put back there. -/
theorem backward_reinsertion_restores_order_witness :
    detachedPage.dom.childNodes 0 = [1, 3] ∧
    (undoMutationRecord removalRecord detachedPage).2 = none ∧
    (undoMutationRecord removalRecord detachedPage).1.dom.childNodes 0 = [1, 2, 3] :=
  ⟨by decide,
   backward_reinsertion_restores_order detachedPage removalRecord [1] [2] [3]
     rfl rfl rfl rfl (by decide) (by decide) (by decide) (by decide) (by decide)⟩

/-- Claim C16.  While `future` is empty, let a flush deliver a batch in which the text event
`r1` is followed, after events `mid` none of which is a text event on the same target, by the
text event `r2` on the same target, whose old value is the string `v` (the empty string
allowed).  Then the entry committed for `r1` is `r1` with `newValue` equal to `v` (and the
stack of the flush), whatever the other events of the batch are. -/
theorem text_threading (f : FlushStep) (s : State) (pre mid post : List MutationRecord)
    (r1 r2 : MutationRecord) (v : String)
    (hfuture : s.future = [])
    (hbatch : f.batch = pre ++ r1 :: (mid ++ r2 :: post))
    (h1 : r1.type = .characterData) (h2 : r2.type = .characterData)
    (htarget : r2.target = r1.target)
    (hmid : ∀ r ∈ mid, ¬ (r.type = .characterData ∧ r.target = r1.target))
    (hv : r2.oldValue = some v) :
    (f.run s).1.past[s.past.length + pre.length]? =
      some { r1 with newValue := .str v, stack := f.stack } := by
  have hne : f.batch ≠ [] := by
    rw [hbatch]
    simp
  have hsingle : ∀ r, f.batch = [r] → r.type = .attributes →
      attrKey r.attributeName ∉ objectPrototypeProps := by
    intro r hr
    have hlen := congrArg List.length hr
    rw [hbatch] at hlen
    simp only [List.length_append, List.length_cons, List.length_nil] at hlen
    omega
  obtain ⟨t, -, hpast⟩ := f.run_general s hfuture hne hsingle
  rw [hpast, List.getElem?_append_right (by omega), Nat.add_sub_cancel_left, hbatch,
    reconstructLoop_getElem,
    reconstructLoop_text_threading f.stack mid post r1 r2 _ _ v h1 h2 htarget hmid hv]

/-- Witness of C16: the first text event of `textFlush` receives the old value of the second
one, the empty string, across an attribute event. -/
theorem text_threading_witness :
    (textFlush.run (State.start exampleDom)).1.past[0]? =
      some { MutationRecord.text 4 (some "a") with newValue := .str "" } :=
  text_threading textFlush (State.start exampleDom) [] [MutationRecord.attr 0 "class" (some "c")]
    [] (MutationRecord.text 4 (some "a")) (MutationRecord.text 4 (some "")) "" rfl rfl rfl rfl
    rfl (by decide) rfl

/-- Claim C17.  With `future` empty and a non-empty observer queue `b`, `undo()` first commits
`b`: the entries are those a flush of the queue appends to `past`, reconstructed against the
tree as it is before anything is undone.  Only then it pops: afterwards `past` is the old
`past` followed by all entries but the last, `future` holds exactly the last entry, and that
entry has been applied backward to the tree. -/
theorem undo_commits_pending_first (s : State) (hfuture : s.future = [])
    (hpending : s.page.queue ≠ []) :
    ∃ entries last,
      entries.map MutationRecord.event = s.page.queue.map MutationRecord.event ∧
      entries.getLast? = some last ∧
      s.flush.past = s.past ++ entries ∧
      s.flush.page.dom = s.page.dom ∧
      (undo s).1.past = s.past ++ entries.dropLast ∧
      (undo s).1.future = [last] ∧
      (undo s).1.page.dom = (undoMutationRecord last s.flush.page).1.dom ∧
      (undo s).2 = (undoMutationRecord last s.flush.page).2 := by
  have hf : (takeRecords s).2.future = [] := hfuture
  obtain ⟨entries, calls, h, he⟩ :=
    logUnclaimedMutations_commit_eq s.page.queue (takeRecords s).2 hf hpending
  have hne : entries ≠ [] := by
    intro h0
    rw [h0] at he
    exact hpending (List.map_eq_nil_iff.mp he.symm)
  obtain ⟨last, hlast⟩ : ∃ last, entries.getLast? = some last := by
    cases hl : entries.getLast? with
    | none => exact absurd (List.getLast?_eq_none_iff.mp hl) hne
    | some m => exact ⟨m, rfl⟩
  have hflush : s.flush = (logUnclaimedMutations (some s.page.queue) (takeRecords s).2).1 := rfl
  have hget : ((takeRecords s).2.past ++ entries).getLast? = some last := by
    rw [List.getLast?_append, hlast]
    rfl
  have hdrop : ((takeRecords s).2.past ++ entries).dropLast = s.past ++ entries.dropLast :=
    List.dropLast_append_of_ne_nil _ hne
  have hundo := undo_after_flush s _ last h hget
  refine ⟨entries, last, he, hlast, ?_, ?_, ?_, ?_, ?_, ?_⟩
  · rw [hflush, h]
    rfl
  · rw [hflush, h]
    rfl
  · rw [hundo]
    exact hdrop
  · rw [hundo]
    simp only [List.append_left_eq_self]
    exact hfuture
  · rw [hundo, hflush, h]
  · rw [hundo, hflush, h]

/-- Witness of C17: `undo()` with two pending records (a change of `class`, then a change of
the text of node `4`) commits both, keeps the first on `past` and undoes the second. -/
theorem undo_commits_pending_first_witness :
    (pendingState.future = [] ∧ pendingState.page.queue.length = 2) ∧
    ∃ entries last,
      entries.map MutationRecord.event = pendingState.page.queue.map MutationRecord.event ∧
      entries.getLast? = some last ∧
      pendingState.flush.past = pendingState.past ++ entries ∧
      pendingState.flush.page.dom = pendingState.page.dom ∧
      (undo pendingState).1.past = pendingState.past ++ entries.dropLast ∧
      (undo pendingState).1.future = [last] ∧
      (undo pendingState).1.page.dom =
        (undoMutationRecord last pendingState.flush.page).1.dom ∧
      (undo pendingState).2 = (undoMutationRecord last pendingState.flush.page).2 :=
  ⟨⟨by decide, by decide⟩, undo_commits_pending_first pendingState (by decide) (by decide)⟩

/-- Claim C18, as stated, fails: a batch of two records that is branch-cancelled (it goes to
`lostFuture` while `reviewingState` has a future, the counter being `0`) is not passed to
the logging hook. -/
theorem cancelled_batch_is_not_logged :
    reviewingState.isDoingOffRecordsMutations = 0 ∧ reviewingState.future ≠ [] ∧
    lateFlush.batch.length = 2 ∧
    (lateFlush.run reviewingState).1.lostFuture = reviewingState.lostFuture ++ lateFlush.batch ∧
    (lateFlush.run reviewingState).1.loggedRecords = reviewingState.loggedRecords := by
  decide

/-- Claim C18, amended.  A non-empty batch that is committed to `past` (`future` empty) is
passed to the logging hook exactly once, with the claim label (`"unclaimed"` without a
claim), the committed entries of the batch and the causal descriptor.  A non-empty batch
that is branch-cancelled (`future` non-empty) is not passed to the hook: `postProcessRecords`
empties the array, and the callers skip the call. -/
theorem logging_on_commit_only (f : FlushStep) (s : State) (hbatch : f.batch ≠ []) :
    (s.future = [] →
      ∃ entries, entries.map MutationRecord.event = f.batch.map MutationRecord.event ∧
        (f.run s).1.past = s.past ++ entries ∧
        (f.run s).1.loggedRecords = s.loggedRecords ++ [⟨f.label, entries, f.stack⟩]) ∧
    (s.future ≠ [] → (f.run s).1.loggedRecords = s.loggedRecords) := by
  constructor
  · intro hfuture
    obtain ⟨entries, he, -, hpast, hlog⟩ := f.run_commit_logged s hfuture hbatch
    exact ⟨entries, he, hpast, hlog⟩
  · intro hfuture
    exact f.run_cancel_logged s hfuture hbatch

/-- Witness of the amended C18: a claimed flush on an empty history is logged once under its
claim; a flush while `reviewingState` has a future is not logged. -/
theorem logging_on_commit_only_witness :
    (∃ entries,
      entries.map MutationRecord.event = claimedFlush.batch.map MutationRecord.event ∧
      (claimedFlush.run (State.start exampleDom)).1.past =
        (State.start exampleDom).past ++ entries ∧
      (claimedFlush.run (State.start exampleDom)).1.loggedRecords =
        (State.start exampleDom).loggedRecords ++
          [⟨"set className", entries, .str "at f (app.js:1:1)"⟩]) ∧
    (lateFlush.run reviewingState).1.loggedRecords = reviewingState.loggedRecords :=
  ⟨(logging_on_commit_only claimedFlush (State.start exampleDom) (by decide)).1 rfl,
   (logging_on_commit_only lateFlush reviewingState (by decide)).2 (by decide)⟩

/-- Claim C19.  With an empty observer queue, `undo()` and `redo()` both preserve the sequence
`past ++ reverse future`, hence the sum of the two lengths, and leave `lostFuture`
unchanged (also when the applier raises). -/
theorem timeline_conserved (s : State) (hq : s.page.queue = []) :
    ((undo s).1.past ++ (undo s).1.future.reverse = s.past ++ s.future.reverse ∧
      (undo s).1.past.length + (undo s).1.future.length = s.past.length + s.future.length ∧
      (undo s).1.lostFuture = s.lostFuture) ∧
    ((redo s).1.past ++ (redo s).1.future.reverse = s.past ++ s.future.reverse ∧
      (redo s).1.past.length + (redo s).1.future.length = s.past.length + s.future.length ∧
      (redo s).1.lostFuture = s.lostFuture) := by
  rw [undo_of_idle s hq, redo_of_idle s hq]
  constructor
  · cases h : s.past.getLast? with
    | none => exact ⟨rfl, rfl, rfl⟩
    | some m =>
      have hp : s.past.dropLast ++ [m] = s.past := List.dropLast_append_getLast? m h
      have hl : s.past.dropLast.length + 1 = s.past.length := by
        simpa using congrArg List.length hp
      refine ⟨?_, ?_, rfl⟩
      · simp only [List.reverse_append, List.reverse_singleton, List.singleton_append]
        rw [← hp]
        simp
      · simp only [List.length_append, List.length_singleton]
        omega
  · cases h : s.future.getLast? with
    | none => exact ⟨rfl, rfl, rfl⟩
    | some m =>
      have hp : s.future.dropLast ++ [m] = s.future := List.dropLast_append_getLast? m h
      have hl : s.future.dropLast.length + 1 = s.future.length := by
        simpa using congrArg List.length hp
      refine ⟨?_, ?_, rfl⟩
      · simp only
        rw [← hp]
        simp
      · simp only [List.length_append, List.length_singleton]
        omega

/-- Witness of C19 on the state with one stale entry on each stack. -/
theorem timeline_conserved_witness :
    (undo staleState).1.past ++ (undo staleState).1.future.reverse =
      [staleRemoval, staleInsertion] ∧
    (redo staleState).1.past ++ (redo staleState).1.future.reverse =
      [staleRemoval, staleInsertion] :=
  ⟨(timeline_conserved staleState rfl).1.1, (timeline_conserved staleState rfl).2.1⟩

/-- Claim C20.  With an empty observer queue, when applying the last entry of `past` backward
raises, `undo()` raises the same exception, and the entry is off `past` and on `future`
all the same; when applying the last entry of `future` forward raises, `redo()` raises the
same exception, and the entry is off `future` and on `past`. -/
theorem stack_move_not_rolled_back (s : State) (m : MutationRecord) (e : DOMException)
    (hq : s.page.queue = []) :
    (s.past.getLast? = some m → (undoMutationRecord m s.page).2 = some e →
      (undo s).2 = some e ∧ (undo s).1.past = s.past.dropLast ∧
      (undo s).1.future = s.future ++ [m]) ∧
    (s.future.getLast? = some m → (redoMutationRecord m s.page).2 = some e →
      (redo s).2 = some e ∧ (redo s).1.future = s.future.dropLast ∧
      (redo s).1.past = s.past ++ [m]) := by
  constructor
  · intro hm he
    rw [undo_of_idle s hq, hm]
    exact ⟨he, rfl, rfl⟩
  · intro hm he
    rw [redo_of_idle s hq, hm]
    exact ⟨he, rfl, rfl⟩

/-- Witness of C20: in `staleState` the reference sibling of both entries is not a child
of the root, so `insertBefore` raises `NotFoundError`; the entries have moved nonetheless. -/
theorem stack_move_not_rolled_back_witness :
    ((undo staleState).2 = some .NotFoundError ∧ (undo staleState).1.past = [] ∧
      (undo staleState).1.future = [staleInsertion, staleRemoval]) ∧
    ((redo staleState).2 = some .NotFoundError ∧ (redo staleState).1.future = [] ∧
      (redo staleState).1.past = [staleRemoval, staleInsertion]) :=
  ⟨(stack_move_not_rolled_back staleState staleRemoval .NotFoundError rfl).1
     (by decide) (by decide),
   (stack_move_not_rolled_back staleState staleInsertion .NotFoundError rfl).2
     (by decide) (by decide)⟩

end DomTimeline
